import Mathlib

/-!
Ingredient parsing of `src/utils/ingredientParser.js`.

A shallow embedding of the ingredient parser: `parseIngredient`, `parseIngredients`,
`formatIngredient`, `ingredientsToStrings` and the private helpers they call, followed by the
properties established of them.

Modelling conventions.

* A JavaScript string is a `List Char`. The source's regular expressions carry no `u` flag and
  so work on UTF-16 code units; every character class in them holds only characters of the
  Basic Multilingual Plane and `.` accepts both halves of a surrogate pair one after the other,
  so matching on characters gives the same captures. Strings with unpaired surrogates are
  outside the model.
* A regular expression is a backtracking matcher: a function from the input to the list of all
  its matches at the start of that input, most preferred first, each as the pair
  (text matched, rest of the input). The first entry that lets the rest of the pattern succeed
  is the match the engine reports.
* `null` as a result of `parseIngredient` is `none`.
-/

namespace FocusRecipe

/-- A JavaScript string. -/
abbrev JSString := List Char

/-! ## Characters -/

/-- The characters of `\d`. -/
def isDigit (c : Char) : Bool :=
  decide (48 ≤ c.toNat) && decide (c.toNat ≤ 57)

/-- The characters of `\s`, which are also the ones `String.prototype.trim` removes:
WhiteSpace and LineTerminator of the language. -/
def isWhiteSpace (c : Char) : Bool :=
  let n := c.toNat
  (decide (9 ≤ n) && decide (n ≤ 13)) || n == 0x20 || n == 0xA0 || n == 0x1680 ||
    (decide (0x2000 ≤ n) && decide (n ≤ 0x200A)) || n == 0x2028 || n == 0x2029 ||
    n == 0x202F || n == 0x205F || n == 0x3000 || n == 0xFEFF

/-- The characters `.` does not accept. -/
def isLineTerminator (c : Char) : Bool :=
  let n := c.toNat
  n == 0x0A || n == 0x0D || n == 0x2028 || n == 0x2029

/-- The characters of `[a-zA-Z]`. -/
def isAsciiLetter (c : Char) : Bool :=
  let n := c.toNat
  (decide (97 ≤ n) && decide (n ≤ 122)) || (decide (65 ≤ n) && decide (n ≤ 90))

/-- The class of the unit segment, `[a-zA-Z°%½¾⅓⅔⅛⅜⅝\s-]`. The `i` flag adds nothing to it:
without the `u` flag a character above U+007F is never folded onto an ASCII letter, and the
other members have no case. -/
def isUnitChar (c : Char) : Bool :=
  let n := c.toNat
  isAsciiLetter c || n == 0xB0 || n == 0x25 || n == 0xBD || n == 0xBE || n == 0x2153 ||
    n == 0x2154 || n == 0x215B || n == 0x215C || n == 0x215D || isWhiteSpace c || n == 0x2D

/-- The class `[0-9.]`. -/
def isDigitOrDot (c : Char) : Bool :=
  isDigit c || c.toNat == 0x2E

/-- The class `[,;\n]`. -/
def isListSeparator (c : Char) : Bool :=
  let n := c.toNat
  n == 0x2C || n == 0x3B || n == 0x0A

/-! ## String primitives of the platform -/

/-- `String.prototype.trim`. -/
def trim (s : JSString) : JSString :=
  ((s.dropWhile isWhiteSpace).reverse.dropWhile isWhiteSpace).reverse

/-- Lower-casing of one character, for the letters `A` to `Z`. -/
def toLowerChar (c : Char) : Char :=
  if 65 ≤ c.toNat ∧ c.toNat ≤ 90 then Char.ofNat (c.toNat + 32) else c

/-- `String.prototype.toLowerCase`, modelled on the ASCII letters: a character outside `A`-`Z`
is left as it is. This is what the platform does on every string whose cased characters are
ASCII letters; other cased characters are outside the model. -/
def toLowerCase (s : JSString) : JSString :=
  s.map toLowerChar

/-- The search loop of `indexOf`, at offset `i` of the whole string. -/
def indexOfFrom (needle : JSString) : JSString → Nat → Option Nat
  | [], i => if needle.isEmpty then some i else none
  | c :: cs, i =>
    if needle.isPrefixOf (c :: cs) then some i else indexOfFrom needle cs (i + 1)

/-- `String.prototype.indexOf`: the position of the first occurrence, `none` for `-1`. -/
def indexOf (s needle : JSString) : Option Nat :=
  indexOfFrom needle s 0

/-- `Array.prototype.join`. -/
def join (sep : JSString) : List JSString → JSString
  | [] => []
  | [p] => p
  | p :: q :: ps => p ++ sep ++ join sep (q :: ps)

/-! ## Backtracking matchers -/

/-- A matcher lists every match at the start of the input, most preferred first, as
(text matched, rest of the input). -/
abbrev Matcher := JSString → List (JSString × JSString)

/-- A single character of a class. -/
def charM (p : Char → Bool) : Matcher
  | [] => []
  | c :: cs => if p c then [([c], cs)] else []

/-- Greedy `x*` for a one-character class `x`: the longest run first, then each shorter one. -/
def starM (p : Char → Bool) : Matcher
  | [] => [([], [])]
  | c :: cs =>
    if p c then (starM p cs).map (fun r => (c :: r.1, r.2)) ++ [([], c :: cs)]
    else [([], c :: cs)]

/-- Greedy `x+` for a one-character class `x`. -/
def plusM (p : Char → Bool) : Matcher
  | [] => []
  | c :: cs => if p c then (starM p cs).map (fun r => (c :: r.1, r.2)) else []

/-- Concatenation `ab`: every match of `a`, each followed by every match of `b`. -/
def seqM (a b : Matcher) : Matcher := fun s =>
  (a s).flatMap (fun r => (b r.2).map (fun t => (r.1 ++ t.1, t.2)))

/-- Greedy `(?:a)?`: the matches of `a` that consume something, then the empty match. A round
of the quantifier that matched the empty string is rejected by the engine. -/
def optM (a : Matcher) : Matcher := fun s =>
  ((a s).filter (fun r => !r.1.isEmpty)) ++ [([], s)]

/-- Greedy capturing `(a)?`: as `optM`, the captured text being `none` when the group did not
take part in the match. -/
def optGroupM (a : Matcher) (s : JSString) : List (Option JSString × JSString) :=
  ((a s).filter (fun r => !r.1.isEmpty)).map (fun r => (some r.1, r.2)) ++ [(none, s)]

/-- The sub-pattern `\d+(?:\/\d+)?`. -/
def numberM : Matcher :=
  seqM (plusM isDigit) (optM (seqM (charM (fun c => c.toNat == 0x2F)) (plusM isDigit)))

/-- The body of the quantity group, `\d+(?:\/\d+)?(?:\s+\d+(?:\/\d+)?)?\s*`. -/
def quantityM : Matcher :=
  seqM numberM (seqM (optM (seqM (plusM isWhiteSpace) numberM)) (starM isWhiteSpace))

/-- The tail `(.+)$` of the pattern: the whole rest of the input, when it is not empty and
holds no line terminator. -/
def restM (s : JSString) : List JSString :=
  ((plusM (fun c => !isLineTerminator c) s).filter (fun r => r.2.isEmpty)).map (fun r => r.1)

/-- The match of the ingredient pattern
`/^(\d+(?:\/\d+)?(?:\s+\d+(?:\/\d+)?)?\s*)?([a-zA-Z°%½¾⅓⅔⅛⅜⅝\s-]*)?(.+)$/i`
on `s`: the three captured groups of the first successful way through the pattern, `none`
when there is none. The `^` anchors the only attempt at the start of the input. -/
def matchPattern (s : JSString) : Option (Option JSString × Option JSString × JSString) :=
  ((optGroupM quantityM s).flatMap (fun q =>
    (optGroupM (starM isUnitChar) q.2).flatMap (fun u =>
      (restM u.2).map (fun n => (q.1, u.1, n))))).head?

/-! ## Quantity -/

/-- The table `fractionMap` of `cleanQuantity`, in its order: glyph and replacement. -/
def fractionMap : List (Char × JSString) :=
  [ (Char.ofNat 0xBC, "0.25".toList), (Char.ofNat 0xBD, "0.5".toList),
    (Char.ofNat 0xBE, "0.75".toList), (Char.ofNat 0x2153, "0.333".toList),
    (Char.ofNat 0x2154, "0.666".toList), (Char.ofNat 0x215B, "0.125".toList),
    (Char.ofNat 0x215C, "0.375".toList), (Char.ofNat 0x215D, "0.625".toList),
    (Char.ofNat 0x215E, "0.875".toList) ]

/-- The call `result.replace(new RegExp(fraction, 'g'), decimal)` for a one-character
`fraction`: every occurrence of the character is replaced. -/
def replaceAllChar (fraction : Char) (decimal : JSString) (s : JSString) : JSString :=
  s.flatMap (fun c => if c = fraction then decimal else [c])

/-- A number as the mixed-number branch of `cleanQuantity` meets it: `NaN`, or the finite
decimal `mantissa / 10 ^ scale`. Arithmetic on it is exact; the platform's double arithmetic
agrees with it as long as the operands and the sum are whole numbers below `2 ^ 53`, may round
elsewhere, and prints in exponent form from `1e21` on. -/
inductive JSNumber where
  | nan
  | dec (mantissa scale : Nat)
  deriving DecidableEq, Repr

/-- The value of a text of decimal digits. -/
def digitsToNat (s : JSString) : Nat :=
  s.foldl (fun n c => 10 * n + (c.toNat - 48)) 0

/-- The function `parseFloat` on a text of digits and dots (what the groups of the mixed-number
pattern capture): the longest prefix `digits`, `digits.digits`, `digits.` or `.digits` is
read, and a text starting with none of these gives `NaN`. -/
def parseFloat (s : JSString) : JSNumber :=
  let whole := s.takeWhile isDigit
  let frac :=
    match s.dropWhile isDigit with
    | c :: t => if c.toNat == 0x2E then t.takeWhile isDigit else []
    | [] => []
  if whole.isEmpty && frac.isEmpty then JSNumber.nan
  else JSNumber.dec (digitsToNat (whole ++ frac)) frac.length

/-- The sum `a + b` of two numbers. -/
def JSNumber.add : JSNumber → JSNumber → JSNumber
  | JSNumber.dec m j, JSNumber.dec n k => JSNumber.dec (m * 10 ^ k + n * 10 ^ j) (j + k)
  | _, _ => JSNumber.nan

/-- The digits of `n`, padded with zeros on the left to `width` places. -/
def padDigits (width n : Nat) : JSString :=
  let ds := Nat.toDigits 10 n
  List.replicate (width - ds.length) '0' ++ ds

/-- The method `Number.prototype.toString`: the whole part, then a dot and the fractional
digits without trailing zeros when there are any. -/
def JSNumber.toString : JSNumber → JSString
  | JSNumber.nan => "NaN".toList
  | JSNumber.dec m k =>
    let frac := ((padDigits k (m % 10 ^ k)).reverse.dropWhile (fun c => c == '0')).reverse
    if frac.isEmpty then Nat.toDigits 10 (m / 10 ^ k)
    else Nat.toDigits 10 (m / 10 ^ k) ++ '.' :: frac

/-- The match of `/^(\d+)\s+([0-9.]+)$/`: the two captured groups. -/
def matchMixed (s : JSString) : Option (JSString × JSString) :=
  ((plusM isDigit s).flatMap (fun w =>
    (plusM isWhiteSpace w.2).flatMap (fun g =>
      ((plusM isDigitOrDot g.2).filter (fun f => f.2.isEmpty)).map (fun f => (w.1, f.1))))).head?

/-- The function `cleanQuantity`; `none` is an `undefined` argument. -/
def cleanQuantity (quantityStr : Option JSString) : JSString :=
  match quantityStr with
  | none => []
  | some [] => []
  | some (c :: cs) =>
    let cleaned := toLowerCase (trim (c :: cs))
    let result := fractionMap.foldl (fun r e => replaceAllChar e.1 e.2 r) cleaned
    match matchMixed result with
    | some (w, f) => ((parseFloat w).add (parseFloat f)).toString
    | none => result

/-! ## Unit -/

/-- The table `unitMap` of `cleanUnit`. -/
def unitMap : List (JSString × JSString) :=
  [ ("tbsp".toList, "tablespoon".toList), ("tbs".toList, "tablespoon".toList),
    ("tbl".toList, "tablespoon".toList), ("tsp".toList, "teaspoon".toList),
    ("t".toList, "teaspoon".toList), ("oz".toList, "ounce".toList),
    ("lbs".toList, "pound".toList), ("lb".toList, "pound".toList),
    ("g".toList, "gram".toList), ("kg".toList, "kilogram".toList),
    ("ml".toList, "milliliter".toList), ("l".toList, "liter".toList),
    ("c".toList, "cup".toList), ("pt".toList, "pint".toList),
    ("qt".toList, "quart".toList), ("gal".toList, "gallon".toList) ]

/-- The property names every object literal inherits from `Object.prototype`. The lookup
`unitMap[unit]` finds these too, and what it finds is a function or an object, not a text. -/
def objectPrototypeKeys : List JSString :=
  [ "constructor".toList, "__proto__".toList, "hasOwnProperty".toList,
    "isPrototypeOf".toList, "propertyIsEnumerable".toList, "toLocaleString".toList,
    "toString".toList, "valueOf".toList, "__defineGetter__".toList,
    "__defineSetter__".toList, "__lookupGetter__".toList, "__lookupSetter__".toList ]

/-- What `cleanUnit` returns: a text, or the value inherited under `key` when the unit word is
one of `objectPrototypeKeys`. -/
inductive UnitValue where
  | text (s : JSString)
  | inherited (key : JSString)
  deriving DecidableEq, Repr

/-- The call `cleaned.replace(/s$/, '')`: one final `s` is removed. -/
def stripTrailingS (s : JSString) : JSString :=
  if s.getLast? = some 's' then s.dropLast else s

/-- The function `cleanUnit`; `none` is an `undefined` argument. -/
def cleanUnit (unitStr : Option JSString) : UnitValue :=
  match unitStr with
  | none => UnitValue.text []
  | some [] => UnitValue.text []
  | some (c :: cs) =>
    let cleaned := toLowerCase (trim (c :: cs))
    let unit := stripTrailingS cleaned
    match unitMap.lookup unit with
    | some full => UnitValue.text full
    | none => if unit ∈ objectPrototypeKeys then UnitValue.inherited unit else UnitValue.text unit

/-! ## Name and notes -/

/-- The list `separators` of `parseNameAndNotes`. -/
def separators : List JSString :=
  [ ",".toList, "(".toList, "-".toList, "for".toList, "chopped".toList, "diced".toList,
    "sliced".toList, "minced".toList, "grated".toList ]

/-- The loop over the separators: the index of the first separator of the list whose first
occurrence in the lower-cased text is at an index above 0. -/
def findSeparator (cleaned : JSString) : List JSString → Option Nat
  | [] => none
  | separator :: rest =>
    match indexOf (toLowerCase cleaned) separator with
    | some index => if 0 < index then some index else findSeparator cleaned rest
    | none => findSeparator cleaned rest

/-- The call `notes.replace(/^\(|\)$/g, '')`: an opening parenthesis at the start and a closing
one at the end are removed. -/
def stripParens (notes : JSString) : JSString :=
  let opened :=
    match notes with
    | c :: t => if c = '(' then t else notes
    | [] => notes
  if opened.getLast? = some ')' then opened.dropLast else opened

/-- The result of `parseNameAndNotes`. -/
structure NameAndNotes where
  name : JSString
  notes : JSString
  deriving DecidableEq, Repr

/-- The function `parseNameAndNotes`. -/
def parseNameAndNotes (nameStr : JSString) : NameAndNotes :=
  if nameStr.isEmpty then { name := [], notes := [] }
  else
    let cleaned := trim nameStr
    match findSeparator cleaned separators with
    | some index =>
      { name := trim (cleaned.take index), notes := trim (stripParens (trim (cleaned.drop index))) }
    | none => { name := cleaned, notes := trim (stripParens []) }

/-! ## Values -/

/-- A structured ingredient: the record `parseIngredient` builds. -/
structure Ingredient where
  quantity : JSString
  unit : UnitValue
  name : JSString
  notes : JSString
  original : JSString
  deriving DecidableEq, Repr

/-- The values an ingredient function can be handed, arrays apart: the primitive values and the
structured ingredient. A number is given by a whole value; the functions below only ask
whether it is zero. -/
inductive JSValue where
  | undefined
  | null
  | boolean (b : Bool)
  | number (n : Int)
  | string (s : JSString)
  | ingredient (r : Ingredient)
  deriving DecidableEq, Repr

/-- An argument of the list functions: one value, or an array of values. -/
inductive JSArg where
  | value (v : JSValue)
  | array (xs : List JSValue)
  deriving DecidableEq, Repr

/-- The conversion to boolean that `!x`, `x || y` and `if (x)` apply. -/
def JSValue.truthy : JSValue → Bool
  | JSValue.undefined => false
  | JSValue.null => false
  | JSValue.boolean b => b
  | JSValue.number n => n != 0
  | JSValue.string s => !s.isEmpty
  | JSValue.ingredient _ => true

/-- The test `typeof x === 'string'`. -/
def JSValue.isString : JSValue → Bool
  | JSValue.string _ => true
  | _ => false

/-- The error a property read on `null` or `undefined` raises. -/
inductive JSError where
  | typeError
  deriving DecidableEq, Repr

deriving instance DecidableEq for Except

/-! ## The parser -/

/-- The function `parseIngredient`; `none` is the result `null`. -/
def parseIngredient (ingredientText : JSValue) : Option Ingredient :=
  match ingredientText with
  | JSValue.string text =>
    if text.isEmpty then none
    else
      let trimmed := trim text
      match matchPattern trimmed with
      | none =>
        some { quantity := [], unit := UnitValue.text [], name := trimmed, notes := [],
               original := trimmed }
      | some (quantityStr, unitStr, nameStr) =>
        let nameAndNotes := parseNameAndNotes nameStr
        some { quantity := cleanQuantity quantityStr, unit := cleanUnit unitStr,
               name := nameAndNotes.name, notes := nameAndNotes.notes, original := trimmed }
  | _ => none

/-- The scan of `split(/[,;\n]+/)`: `piece` holds, reversed, the characters since the last
separator run, and `inRun` tells that the previous character belonged to a separator run,
which the pattern `[,;\n]+` takes whole as one separator. -/
def splitLoop : JSString → Bool → JSString → List JSString
  | [], _, piece => [piece.reverse]
  | c :: cs, inRun, piece =>
    if isListSeparator c then
      if inRun then splitLoop cs true [] else piece.reverse :: splitLoop cs true []
    else splitLoop cs false (c :: piece)

/-- The call `ingredients.split(/[,;\n]+/)`. -/
def splitIngredients (s : JSString) : List JSString :=
  splitLoop s false []

/-- The function `parseIngredients`. -/
def parseIngredients (ingredients : JSArg) : List Ingredient :=
  match ingredients with
  | JSArg.value v =>
    if !v.truthy then []
    else
      match v with
      | JSValue.string s =>
        let ingredientList := (splitIngredients s).filter (fun item => !(trim item).isEmpty)
        (ingredientList.map (fun item => parseIngredient (JSValue.string item))).reduceOption
      | _ => []
  | JSArg.array ingredientList => (ingredientList.map parseIngredient).reduceOption

/-! ## Formatting -/

/-- The text `Array.prototype.join` puts for a unit: the unit itself when it is a text, and for
an inherited value its conversion to string as V8 prints it. -/
def UnitValue.toText : UnitValue → JSString
  | UnitValue.text s => s
  | UnitValue.inherited key =>
    if key = "__proto__".toList then "[object Object]".toList
    else
      "function ".toList ++ (if key = "constructor".toList then "Object".toList else key) ++
        "() \x7b [native code] \x7d".toList

/-- The truth value of a unit: a text is true when not empty, an inherited value always. -/
def UnitValue.truthy : UnitValue → Bool
  | UnitValue.text s => !s.isEmpty
  | UnitValue.inherited _ => true

/-- The function `formatIngredient`. A true value that is no structured ingredient has none
of the four properties, so nothing is pushed for it. -/
def formatIngredient (ingredient : JSValue) : JSString :=
  if !ingredient.truthy then []
  else
    match ingredient with
    | JSValue.ingredient r =>
      join " ".toList
        ((if !r.quantity.isEmpty then [r.quantity] else []) ++
         (if r.unit.truthy then [r.unit.toText] else []) ++
         (if !r.name.isEmpty then [r.name] else []) ++
         (if !r.notes.isEmpty then ["(".toList ++ r.notes ++ ")".toList] else []))
    | _ => []

/-- The callback of `ingredientsToStrings`, on one element. Reading `original` from `null` or
`undefined` raises; a boolean or a number has no `original`. -/
def ingredientToString (ingredient : JSValue) : Except JSError JSString :=
  match ingredient with
  | JSValue.string s => Except.ok s
  | JSValue.null => Except.error JSError.typeError
  | JSValue.undefined => Except.error JSError.typeError
  | JSValue.ingredient r =>
    Except.ok (if !r.original.isEmpty then r.original else formatIngredient ingredient)
  | other => Except.ok (formatIngredient other)

/-- The call `ingredients.map(callback)` for a callback that may raise: the elements are
visited in order and the first error ends the call. -/
def mapStrings (callback : JSValue → Except JSError JSString) :
    List JSValue → Except JSError (List JSString)
  | [] => Except.ok []
  | x :: xs =>
    match callback x with
    | Except.error e => Except.error e
    | Except.ok y =>
      match mapStrings callback xs with
      | Except.error e => Except.error e
      | Except.ok ys => Except.ok (y :: ys)

/-- The function `ingredientsToStrings`. -/
def ingredientsToStrings (ingredients : JSArg) : Except JSError (List JSString) :=
  match ingredients with
  | JSArg.array xs => mapStrings ingredientToString xs
  | JSArg.value _ => Except.ok []

/-! ## Shopping list -/

/-- The method `String.prototype.includes`: the text occurs somewhere in `s`. -/
def includes (s searchString : JSString) : Bool :=
  (indexOf s searchString).isSome

/-- The list `produceKeywords` of `categorizeIngredient`. -/
def produceKeywords : List JSString :=
  [ "apple".toList, "banana".toList, "orange".toList, "lemon".toList, "lime".toList,
    "grape".toList, "strawberry".toList, "blueberry".toList, "onion".toList, "garlic".toList,
    "potato".toList, "carrot".toList, "celery".toList, "lettuce".toList, "tomato".toList,
    "pepper".toList, "broccoli".toList, "cauliflower".toList, "spinach".toList, "kale".toList,
    "mushroom".toList, "avocado".toList, "cucumber".toList, "herb".toList, "basil".toList,
    "parsley".toList, "cilantro".toList, "mint".toList, "rosemary".toList, "thyme".toList,
    "oregano".toList ]

/-- The list `meatKeywords` of `categorizeIngredient`. -/
def meatKeywords : List JSString :=
  [ "chicken".toList, "beef".toList, "pork".toList, "turkey".toList, "fish".toList,
    "salmon".toList, "tuna".toList, "shrimp".toList, "sausage".toList, "bacon".toList,
    "ham".toList, "steak".toList, "ground".toList, "breast".toList, "thigh".toList,
    "wing".toList ]

/-- The list `dairyKeywords` of `categorizeIngredient`. -/
def dairyKeywords : List JSString :=
  [ "milk".toList, "cheese".toList, "butter".toList, "cream".toList, "yogurt".toList,
    "sour cream".toList, "cream cheese".toList, "mozzarella".toList, "cheddar".toList,
    "parmesan".toList, "feta".toList, "goat cheese".toList ]

/-- The list `pantryKeywords` of `categorizeIngredient`. -/
def pantryKeywords : List JSString :=
  [ "flour".toList, "sugar".toList, "salt".toList, "pepper".toList, "oil".toList,
    "vinegar".toList, "rice".toList, "pasta".toList, "bread".toList, "cereal".toList,
    "oats".toList, "beans".toList, "lentils".toList, "nuts".toList, "seeds".toList,
    "spice".toList ]

/-- The list `bakeryKeywords` of `categorizeIngredient`. -/
def bakeryKeywords : List JSString :=
  [ "bread".toList, "roll".toList, "bagel".toList, "croissant".toList, "muffin".toList,
    "cake".toList, "cookie".toList, "pastry".toList ]

/-- The list `frozenKeywords` of `categorizeIngredient`. -/
def frozenKeywords : List JSString :=
  [ "frozen".toList, "ice cream".toList, "pizza".toList, "vegetables".toList,
    "fruit".toList, "meat".toList ]

/-- The test `keywords.some(keyword => name.includes(keyword))`. -/
def someIncluded (keywords : List JSString) (name : JSString) : Bool :=
  keywords.any (fun keyword => includes name keyword)

/-- The chain of tests of `categorizeIngredient`, on the lower-cased name. -/
def categorizeName (name : JSString) : JSString :=
  if someIncluded produceKeywords name then "produce".toList
  else if someIncluded meatKeywords name then "meat".toList
  else if someIncluded dairyKeywords name then "dairy".toList
  else if someIncluded bakeryKeywords name then "bakery".toList
  else if someIncluded frozenKeywords name then "frozen".toList
  else if someIncluded pantryKeywords name then "pantry".toList
  else "other".toList

/-- The function `categorizeIngredient`. Its first statement reads `ingredient.name` and calls
`toLowerCase` on it: on `null` and `undefined` the read raises, and on a string, a number or a
boolean the property is `undefined` and the call raises. -/
def categorizeIngredient (ingredient : JSValue) : Except JSError JSString :=
  match ingredient with
  | JSValue.ingredient r => Except.ok (categorizeName (toLowerCase r.name))
  | _ => Except.error JSError.typeError

/-- An item of the shopping list. -/
structure ShoppingItem where
  name : JSString
  quantity : JSString
  unit : UnitValue
  checked : Bool
  original : JSString
  deriving DecidableEq, Repr

/-- A category of the shopping list with its items. -/
structure ShoppingCategory where
  category : JSString
  items : List ShoppingItem
  deriving DecidableEq, Repr

/-- The object `categories` of `generateShoppingList` as first built: its seven keys in the
order of the literal, which is the order `Object.entries` lists them in, each with an empty
array. -/
def emptyCategories : List (JSString × List ShoppingItem) :=
  [ ("produce".toList, []), ("meat".toList, []), ("dairy".toList, []), ("pantry".toList, []),
    ("bakery".toList, []), ("frozen".toList, []), ("other".toList, []) ]

/-- The statement `categories[category].push(item)`; `none` when `categories` has no such key,
where the call raises. -/
def pushItem (category : JSString) (item : ShoppingItem) :
    List (JSString × List ShoppingItem) → Option (List (JSString × List ShoppingItem))
  | [] => none
  | entry :: rest =>
    if entry.1 = category then some ((entry.1, entry.2 ++ [item]) :: rest)
    else (pushItem category item rest).map (fun rest' => entry :: rest')

/-- The item `generateShoppingList` builds from an ingredient. -/
def itemOf (r : Ingredient) : ShoppingItem :=
  { name := r.name, quantity := r.quantity, unit := r.unit, checked := false,
    original := r.original }

/-- The callback of `ingredients.forEach` in `generateShoppingList`, as a step on
`categories`. -/
def addIngredient (categories : List (JSString × List ShoppingItem)) (ingredient : JSValue) :
    Except JSError (List (JSString × List ShoppingItem)) :=
  match categorizeIngredient ingredient with
  | Except.error e => Except.error e
  | Except.ok category =>
    match ingredient with
    | JSValue.ingredient r =>
      match pushItem category (itemOf r) categories with
      | some categories' => Except.ok categories'
      | none => Except.error JSError.typeError
    | _ => Except.error JSError.typeError

/-- The call `ingredients.forEach(callback)`: the elements in order, the first error ending
the call. -/
def forEachIngredient :
    List JSValue → List (JSString × List ShoppingItem) →
      Except JSError (List (JSString × List ShoppingItem))
  | [], categories => Except.ok categories
  | x :: xs, categories =>
    match addIngredient categories x with
    | Except.error e => Except.error e
    | Except.ok categories' => forEachIngredient xs categories'

/-- The call `items.sort((a, b) => a.name.localeCompare(b.name))`. The comparison of the
platform depends on the locale and is a parameter; the language requires it to be a consistent
order, and for such a comparison the stable sort of the language has one possible result, the
one insertion gives. -/
def sortItems (localeCompare : JSString → JSString → Int) (items : List ShoppingItem) :
    List ShoppingItem :=
  items.insertionSort (fun a b => localeCompare a.name b.name ≤ 0)

/-- The function `generateShoppingList`, for the string comparison `localeCompare` of the
platform. -/
def generateShoppingList (localeCompare : JSString → JSString → Int) (ingredients : JSArg) :
    Except JSError (List ShoppingCategory) :=
  match ingredients with
  | JSArg.value _ => Except.ok []
  | JSArg.array xs =>
    match forEachIngredient xs emptyCategories with
    | Except.error e => Except.error e
    | Except.ok categories =>
      Except.ok ((categories.filter (fun entry => decide (0 < entry.2.length))).map
        (fun entry => { category := entry.1, items := sortItems localeCompare entry.2 }))

/-- A sample string comparison to put for `localeCompare`: by code point, character after
character, a proper start of a text coming before the text. -/
def compareCodePoints : JSString → JSString → Int
  | [], [] => 0
  | [], _ :: _ => -1
  | _ :: _, [] => 1
  | a :: as, b :: bs =>
    if a.toNat < b.toNat then -1
    else if b.toNat < a.toNat then 1
    else compareCodePoints as bs

/-! ## The batch parser as the specification words it -/

/-- Stated from the specification, for comparison with `parseIngredients` on a text blob: the
pieces of the blob, cut at the commas, semicolons and newlines, that hold at least one
character that is not whitespace. Cutting at every separator character or at every run of them
gives the same pieces here, the empty ones between two neighbouring separators not being kept. -/
def blobPieces (s : JSString) : List JSString :=
  (s.splitOnP isListSeparator).filter (fun piece => piece.any (fun c => !isWhiteSpace c))

/-! ## Notions for stating the properties of the shopping list -/

/-- The keys of `categories` in the order of the literal: produce, meat, dairy, pantry,
bakery, frozen, other. -/
def categoryOrder : List JSString :=
  emptyCategories.map (fun entry => entry.1)

/-- The items of the ingredients that are classified under `label`, in input order. -/
def itemsIn (label : JSString) (rs : List Ingredient) : List ShoppingItem :=
  (rs.filter (fun r => decide (categorizeName (toLowerCase r.name) = label))).map itemOf

/-- The elements of an argument: those of the array, none for a value that is no array. -/
def JSArg.elements : JSArg → List JSValue
  | JSArg.array xs => xs
  | JSArg.value _ => []

/-! ## The formatting helpers as the specification words them -/

/-- Stated from the specification, for comparison with `formatIngredient`: the quantity, the
unit and the name that are not empty, then the notes in parentheses when there are notes. -/
def displayParts (r : Ingredient) : List JSString :=
  [r.quantity, r.unit.toText, r.name].filter (fun part => !part.isEmpty) ++
    (if r.notes.isEmpty then [] else ["(".toList ++ r.notes ++ ")".toList])

/-- Stated from the specification, for comparison with `ingredientsToStrings`: a plain string
stands for itself, a record for its `original` when that is not empty and for its formatted
text otherwise. -/
def displayString : JSValue → JSString
  | JSValue.string s => s
  | JSValue.ingredient r =>
    if r.original = [] then " ".toList.intercalate (displayParts r) else r.original
  | _ => []

/-! ## Properties of the line parser -/

/-- The two ways `parseIngredient` builds a record from a string that is not empty: the pattern
does not match the trimmed text, or it matches with three captured groups. -/
theorem parseIngredient_cases (c : Char) (cs : JSString) :
    (matchPattern (trim (c :: cs)) = none ∧
      parseIngredient (JSValue.string (c :: cs)) =
        some { quantity := [], unit := UnitValue.text [], name := trim (c :: cs), notes := [],
               original := trim (c :: cs) }) ∨
    (∃ quantityStr unitStr nameStr,
      matchPattern (trim (c :: cs)) = some (quantityStr, unitStr, nameStr) ∧
      parseIngredient (JSValue.string (c :: cs)) =
        some { quantity := cleanQuantity quantityStr, unit := cleanUnit unitStr,
               name := (parseNameAndNotes nameStr).name,
               notes := (parseNameAndNotes nameStr).notes, original := trim (c :: cs) }) := by
  rw [parseIngredient.eq_1]
  generalize trim (c :: cs) = t
  rw [if_neg (by simp)]
  dsimp only
  cases h : matchPattern t with
  | none => exact Or.inl ⟨rfl, rfl⟩
  | some x =>
    obtain ⟨q, u, n⟩ := x
    exact Or.inr ⟨q, u, n, rfl, rfl⟩

/-- A string that is not empty parses to a record that keeps the trimmed text as `original`. -/
theorem parseIngredient_string_original (s : JSString) (hs : s ≠ []) :
    ∃ r, parseIngredient (JSValue.string s) = some r ∧ r.original = trim s := by
  obtain ⟨c, cs, rfl⟩ := List.exists_cons_of_ne_nil hs
  rcases parseIngredient_cases c cs with ⟨_, h⟩ | ⟨q, u, n, _, h⟩
  · exact ⟨_, h, rfl⟩
  · exact ⟨_, h, rfl⟩

/-- Whatever record a string parses to, its `original` is the trimmed string. -/
theorem original_of_parseIngredient (s : JSString) (r : Ingredient)
    (h : parseIngredient (JSValue.string s) = some r) : r.original = trim s := by
  by_cases hs : s = []
  · subst hs
    exact Option.noConfusion h
  · obtain ⟨r', h', ho⟩ := parseIngredient_string_original s hs
    rw [h] at h'
    cases h'
    exact ho

/-- A record whose `original` is empty has all its fields empty: the pattern does not match the
empty text. -/
theorem eq_empty_of_original_nil (s : JSString) (r : Ingredient)
    (h : parseIngredient (JSValue.string s) = some r) (ho : r.original = []) :
    r = { quantity := [], unit := UnitValue.text [], name := [], notes := [], original := [] } := by
  have ht : trim s = [] := by rw [← original_of_parseIngredient s r h]; exact ho
  cases s with
  | nil => exact Option.noConfusion h
  | cons c cs =>
    have hm : matchPattern [] = none := rfl
    rcases parseIngredient_cases c cs with ⟨_, h'⟩ | ⟨q, u, n, hq, _⟩
    · rw [h, ht] at h'
      cases h'
      rfl
    · rw [ht, hm] at hq
      exact Option.noConfusion hq

/-- Claim C1, at the documented line "2 cups flour": the unit segment of the pattern takes
"cups flou" and leaves the single letter "r" as the name, so the record has unit "cups flou"
and name "r" where the claim has unit "cup" and name "flour". -/
theorem parseIngredient_two_cups_flour :
    parseIngredient (JSValue.string "2 cups flour".toList) =
      some { quantity := "2".toList, unit := UnitValue.text "cups flou".toList,
             name := "r".toList, notes := [], original := "2 cups flour".toList } := by
  decide

/-- Claim C2, at the documented line "2 cups flour, sifted": the unit segment runs up to the
comma, the remainder starts with the comma, and a separator at index 0 is skipped, so the name
is ", sifted" and the notes are empty where the claim has name "flour" and notes "sifted". -/
theorem parseIngredient_two_cups_flour_sifted :
    parseIngredient (JSValue.string "2 cups flour, sifted".toList) =
      some { quantity := "2".toList, unit := UnitValue.text "cups flour".toList,
             name := ", sifted".toList, notes := [],
             original := "2 cups flour, sifted".toList } := by
  decide

/-- Claim C3, at the line "½ cup sugar": the quantity group accepts digits only, the glyph goes
to the unit segment, and the record has an empty quantity, unit "½ cup suga" and name "r" where
the claim has quantity "0.5", unit "cup" and name "sugar". -/
theorem parseIngredient_half_cup_sugar :
    parseIngredient (JSValue.string "½ cup sugar".toList) =
      some { quantity := [], unit := UnitValue.text "½ cup suga".toList,
             name := "r".toList, notes := [], original := "½ cup sugar".toList } := by
  decide

/-- Claim C4, at the line "1 1/2 cups flour": the mixed-number pattern of `cleanQuantity` has no
slash in its second group, so the quantity stays the two-part text "1 1/2" where the claim has
the single decimal "1.5". -/
theorem parseIngredient_mixed_number :
    parseIngredient (JSValue.string "1 1/2 cups flour".toList) =
      some { quantity := "1 1/2".toList, unit := UnitValue.text "cups flou".toList,
             name := "r".toList, notes := [], original := "1 1/2 cups flour".toList } := by
  decide

/-- Claim C5 as stated fails: the line " salt" parses to a record, and turning that record back
into a string gives "salt", not the line itself with its leading blank. -/
theorem ingredientsToStrings_parse_not_verbatim :
    parseIngredient (JSValue.string " salt".toList) =
        some { quantity := [], unit := UnitValue.text "sal".toList, name := "t".toList,
               notes := [], original := "salt".toList } ∧
      ingredientsToStrings (JSArg.array [JSValue.ingredient
          { quantity := [], unit := UnitValue.text "sal".toList, name := "t".toList,
            notes := [], original := "salt".toList }]) = Except.ok ["salt".toList] ∧
      ingredientsToStrings (JSArg.array [JSValue.ingredient
          { quantity := [], unit := UnitValue.text "sal".toList, name := "t".toList,
            notes := [], original := "salt".toList }]) ≠ Except.ok [" salt".toList] := by
  decide

/-- Claim C5, amended: for every string `L` that `parseIngredient` turns into a record,
`ingredientsToStrings` of the one-element array of that record has exactly one element, and
that element is `L` with its leading and trailing whitespace removed. -/
theorem ingredientsToStrings_parse_trimmed (L : JSString) (r : Ingredient)
    (h : parseIngredient (JSValue.string L) = some r) :
    ingredientsToStrings (JSArg.array [JSValue.ingredient r]) = Except.ok [trim L] := by
  have ho := original_of_parseIngredient L r h
  by_cases he : r.original = []
  · have hr := eq_empty_of_original_nil L r h he
    rw [← ho, hr]
    rfl
  · have hne : r.original.isEmpty = false := by
      cases hro : r.original with
      | nil => exact absurd hro he
      | cons a t => rfl
    simp only [ingredientsToStrings, mapStrings, ingredientToString, hne, ← ho]
    rfl

/-- The amended C5 at the line " salt": it parses to a record, and the record is turned
back into "salt". -/
theorem ingredientsToStrings_parse_trimmed_witness :
    parseIngredient (JSValue.string " salt".toList) =
        some { quantity := [], unit := UnitValue.text "sal".toList, name := "t".toList,
               notes := [], original := "salt".toList } ∧
      ingredientsToStrings (JSArg.array [JSValue.ingredient
          { quantity := [], unit := UnitValue.text "sal".toList, name := "t".toList,
            notes := [], original := "salt".toList }]) = Except.ok [trim " salt".toList] :=
  ⟨by decide, ingredientsToStrings_parse_trimmed " salt".toList _ (by decide)⟩

/-- Claim C6: for every string that is not empty, `parseIngredient` returns a record whose
`original` is the input with leading and trailing whitespace removed, on the branch where the
pattern matches and on the branch where it does not. -/
theorem parseIngredient_original_trimmed (s : JSString) (hs : s ≠ []) :
    ∃ r, parseIngredient (JSValue.string s) = some r ∧ r.original = trim s :=
  parseIngredient_string_original s hs

/-- Claim C6 at the line "  2 cups flour ", blanks on both sides. -/
theorem parseIngredient_original_trimmed_witness :
    "  2 cups flour ".toList ≠ [] ∧
      ∃ r, parseIngredient (JSValue.string "  2 cups flour ".toList) = some r ∧
        r.original = trim "  2 cups flour ".toList :=
  ⟨by decide, parseIngredient_original_trimmed "  2 cups flour ".toList (by decide)⟩

/-- Claim C7: `parseIngredient` returns `null` for the empty string, for `null`, and for every
value that is not a string. -/
theorem parseIngredient_null (v : JSValue)
    (h : v = JSValue.string [] ∨ v = JSValue.null ∨ v.isString = false) :
    parseIngredient v = none := by
  rcases h with h | h | h
  · subst h; rfl
  · subst h; rfl
  · cases v <;> first | rfl | simp [JSValue.isString] at h

/-- Claim C7 at the number 42. -/
theorem parseIngredient_null_witness :
    (JSValue.number 42 = JSValue.string [] ∨ JSValue.number 42 = JSValue.null ∨
        (JSValue.number 42).isString = false) ∧
      parseIngredient (JSValue.number 42) = none :=
  ⟨Or.inr (Or.inr rfl), parseIngredient_null (JSValue.number 42) (Or.inr (Or.inr rfl))⟩

/-- Claim C8, at the string of three blanks: the emptiness test comes before the trim, so the
call goes on with the empty trimmed text, the pattern does not match it, and a record with
every field empty is returned where the claim has `null`. -/
theorem parseIngredient_blank :
    parseIngredient (JSValue.string "   ".toList) =
      some { quantity := [], unit := UnitValue.text [], name := [], notes := [],
             original := [] } := by
  decide

/-! ## Properties of the batch parser -/

/-- Trimming leaves nothing exactly when every character is whitespace. -/
theorem trim_eq_nil_iff (p : JSString) : trim p = [] ↔ ∀ c ∈ p, isWhiteSpace c = true := by
  unfold trim
  rw [List.reverse_eq_nil_iff, List.dropWhile_eq_nil_iff]
  constructor
  · intro h
    induction p with
    | nil => simp
    | cons a t ih =>
      by_cases ha : isWhiteSpace a = true
      · rw [List.dropWhile_cons_of_pos ha] at h
        intro c hc
        rcases List.mem_cons.1 hc with rfl | hc
        · exact ha
        · exact ih h c hc
      · rw [List.dropWhile_cons_of_neg ha] at h
        intro c hc
        exact h c (List.mem_reverse.2 hc)
  · intro h c hc
    exact h c ((List.dropWhile_sublist _).subset (List.mem_reverse.1 hc))

/-- The test `item.trim()` of the filter is the test for a character that is not whitespace. -/
theorem trim_nonempty_eq_any (p : JSString) :
    (!(trim p).isEmpty) = p.any (fun c => !isWhiteSpace c) := by
  by_cases h : ∀ c ∈ p, isWhiteSpace c = true
  · have h1 : trim p = [] := (trim_eq_nil_iff p).2 h
    have h2 : p.any (fun c => !isWhiteSpace c) = false := by
      rw [List.any_eq_false]
      intro c hc
      simp [h c hc]
    rw [h1, h2]
    rfl
  · have h1 : trim p ≠ [] := fun e => h ((trim_eq_nil_iff p).1 e)
    have h2 : p.any (fun c => !isWhiteSpace c) = true := by
      rw [List.any_eq_true]
      by_contra hn
      apply h
      intro c hc
      by_contra hw
      exact hn ⟨c, hc, by simp [hw]⟩
    rw [h2]
    cases ht : trim p with
    | nil => exact absurd ht h1
    | cons a t => rfl

/-- The scan of `split` and the cut at every separator character keep the same pieces under a
filter that drops the empty piece. -/
theorem filter_splitLoop (keep : JSString → Bool) (hk : keep [] = false) (s : JSString) :
    (∀ piece, (splitLoop s false piece).filter keep =
        (List.splitOnP.go isListSeparator s piece).filter keep) ∧
      (splitLoop s true []).filter keep = (List.splitOnP.go isListSeparator s []).filter keep := by
  induction s with
  | nil => exact ⟨fun _ => rfl, rfl⟩
  | cons c cs ih =>
    obtain ⟨ihA, ihB⟩ := ih
    by_cases hc : isListSeparator c = true
    · constructor
      · intro piece
        simp only [splitLoop, List.splitOnP.go, hc, if_true, Bool.false_eq_true, if_false,
          List.filter_cons, ihB]
      · simp only [splitLoop, List.splitOnP.go, hc, if_true, List.filter_cons, List.reverse_nil,
          hk, Bool.false_eq_true, if_false, ihB]
    · have hc' : isListSeparator c = false := by simpa using hc
      constructor
      · intro piece
        simp only [splitLoop, List.splitOnP.go, hc', Bool.false_eq_true, if_false, ihA]
      · simp only [splitLoop, List.splitOnP.go, hc', Bool.false_eq_true, if_false, ihA]

/-- The pieces `parseIngredients` keeps of a blob are the pieces of the specification. -/
theorem filter_splitIngredients (s : JSString) :
    (splitIngredients s).filter (fun item => !(trim item).isEmpty) = blobPieces s := by
  have h := (filter_splitLoop (fun item => !(trim item).isEmpty) rfl s).1 []
  unfold splitIngredients blobPieces List.splitOnP
  rw [h]
  congr 1
  funext piece
  exact trim_nonempty_eq_any piece

/-- Parsing a list of strings none of which is empty loses no element, and each record keeps
its trimmed string as `original`. -/
theorem reduceOption_map_parseIngredient (l : List JSString) (hl : ∀ p ∈ l, p ≠ []) :
    ((l.map (fun p => parseIngredient (JSValue.string p))).reduceOption.map some =
        l.map (fun p => parseIngredient (JSValue.string p))) ∧
      (l.map (fun p => parseIngredient (JSValue.string p))).reduceOption.map
        (fun r => r.original) = l.map trim := by
  induction l with
  | nil => exact ⟨rfl, rfl⟩
  | cons p t ih =>
    obtain ⟨r, hr, ho⟩ := parseIngredient_string_original p (hl p (List.mem_cons_self p t))
    obtain ⟨ih1, ih2⟩ := ih (fun q hq => hl q (List.mem_cons_of_mem p hq))
    simp only [List.map_cons, hr, List.reduceOption_cons_of_some, ih1, ih2, ho, and_self]

/-- A piece of the specification is not the empty string. -/
theorem ne_nil_of_mem_blobPieces (s p : JSString) (hp : p ∈ blobPieces s) : p ≠ [] := by
  intro e
  subst e
  have := (List.mem_filter.1 hp).2
  simp at this

/-- Claim C9: on a text blob `parseIngredients` returns, in input order, `parseIngredient` of
each piece got by cutting the blob at the commas, semicolons and newlines and dropping the
pieces without a character that is not whitespace; the result is as long as the list of those
pieces, and the `original` of the i-th record is the i-th piece trimmed. The blob
"2 eggs, 1 cup milk\n1/2 tsp vanilla" gives three records, with originals "2 eggs",
"1 cup milk" and "1/2 tsp vanilla". -/
theorem parseIngredients_blob (s : JSString) :
    (parseIngredients (JSArg.value (JSValue.string s))).map some =
        (blobPieces s).map (fun p => parseIngredient (JSValue.string p)) ∧
      (parseIngredients (JSArg.value (JSValue.string s))).length = (blobPieces s).length ∧
      (parseIngredients (JSArg.value (JSValue.string s))).map (fun r => r.original) =
        (blobPieces s).map trim ∧
      (parseIngredients (JSArg.value (JSValue.string
          "2 eggs, 1 cup milk\n1/2 tsp vanilla".toList))).map (fun r => r.original) =
        ["2 eggs".toList, "1 cup milk".toList, "1/2 tsp vanilla".toList] := by
  have key : parseIngredients (JSArg.value (JSValue.string s)) =
      ((blobPieces s).map (fun p => parseIngredient (JSValue.string p))).reduceOption := by
    cases s with
    | nil => rfl
    | cons c cs =>
      rw [← filter_splitIngredients]
      rfl
  obtain ⟨h1, h2⟩ := reduceOption_map_parseIngredient (blobPieces s)
    (fun p hp => ne_nil_of_mem_blobPieces s p hp)
  refine ⟨?_, ?_, ?_, by decide⟩
  · rw [key, h1]
  · have := congrArg List.length h2
    rw [key]
    simpa using this
  · rw [key, h2]

/-- The records parsed from a list of strings keep, in order, the trimmed strings that are not
empty as their `original`. -/
theorem map_original_filterMap_parseIngredient (xs : List JSString) :
    (xs.filterMap (fun s => parseIngredient (JSValue.string s))).map (fun r => r.original) =
      (xs.filter (fun s => !s.isEmpty)).map trim := by
  induction xs with
  | nil => rfl
  | cons x t ih =>
    cases x with
    | nil =>
      have h0 : parseIngredient (JSValue.string []) = none := rfl
      simp only [List.filterMap_cons, h0, ih, List.filter_cons, List.isEmpty_nil, Bool.not_true,
        Bool.false_eq_true, if_false]
    | cons c cs =>
      obtain ⟨r, hr, ho⟩ := parseIngredient_string_original (c :: cs) (List.cons_ne_nil c cs)
      simp only [List.filterMap_cons, hr, List.map_cons, ho, ih, List.filter_cons,
        List.isEmpty_cons, Bool.not_false, if_true]

/-- Claim C10: on an array of strings `parseIngredients` returns, in input order,
`parseIngredient` of each element that parses to a record; the elements are not cut, the
originals of the records being the trimmed elements that are not empty; the array
["2 cups flour, sifted"] gives exactly one record, with that text as `original`; the empty
array gives the empty list. -/
theorem parseIngredients_array (xs : List JSString) :
    parseIngredients (JSArg.array (xs.map JSValue.string)) =
        xs.filterMap (fun s => parseIngredient (JSValue.string s)) ∧
      (parseIngredients (JSArg.array (xs.map JSValue.string))).map (fun r => r.original) =
        (xs.filter (fun s => !s.isEmpty)).map trim ∧
      parseIngredients (JSArg.array [JSValue.string "2 cups flour, sifted".toList]) =
        [{ quantity := "2".toList, unit := UnitValue.text "cups flour".toList,
           name := ", sifted".toList, notes := [],
           original := "2 cups flour, sifted".toList }] ∧
      parseIngredients (JSArg.array []) = [] := by
  have key : parseIngredients (JSArg.array (xs.map JSValue.string)) =
      xs.filterMap (fun s => parseIngredient (JSValue.string s)) := by
    show ((xs.map JSValue.string).map parseIngredient).reduceOption = _
    rw [List.map_map, List.reduceOption, List.filterMap_map]
    rfl
  refine ⟨key, ?_, by decide, rfl⟩
  rw [key]
  exact map_original_filterMap_parseIngredient xs

/-- Claim C11, at the array with the one element "   ": the array branch of `parseIngredients`
hands the element to `parseIngredient` as it is, which builds a record from it, so the result
holds a record with an empty `original` and an empty `name` where the claim has no record. -/
theorem parseIngredients_array_blank :
    parseIngredients (JSArg.array [JSValue.string "   ".toList]) =
      [{ quantity := [], unit := UnitValue.text [], name := [], notes := [],
         original := [] }] := by
  decide

/-! ## Properties of the formatting helpers -/

/-- The loop of `join` is the interspersing of the separator. -/
theorem join_eq_intercalate (sep : JSString) (parts : List JSString) :
    join sep parts = sep.intercalate parts := by
  induction parts with
  | nil => rfl
  | cons p t ih =>
    cases t with
    | nil => simp [join, List.intercalate]
    | cons q ps =>
      rw [join, ih]
      simp [List.intercalate, List.intersperse]

/-- A unit counts as true exactly when its text is not empty. -/
theorem unit_truthy_eq (u : UnitValue) : u.truthy = !u.toText.isEmpty := by
  cases u with
  | text s => rfl
  | inherited key =>
    simp only [UnitValue.truthy, UnitValue.toText]
    split <;> rfl

/-- The parts `formatIngredient` pushes are the parts of the specification. -/
theorem formatIngredient_ingredient (r : Ingredient) :
    formatIngredient (JSValue.ingredient r) = " ".toList.intercalate (displayParts r) := by
  rw [← join_eq_intercalate]
  simp only [formatIngredient, JSValue.truthy, Bool.not_true, Bool.false_eq_true, if_false,
    displayParts, unit_truthy_eq]
  congr 1
  cases hq : r.quantity.isEmpty <;> cases hu : r.unit.toText.isEmpty <;>
    cases hn : r.name.isEmpty <;> cases ho : r.notes.isEmpty <;>
    simp [List.filter_cons, hq, hu, hn]

/-- Claim C20: for every structured ingredient `formatIngredient` returns the quantity, the
unit and the name that are not empty and, when the notes are not empty, the notes between
parentheses, in that order, with single blanks between them, hence the empty string when all
four fields are empty; for `null` and `undefined` it returns the empty string. -/
theorem formatIngredient_spec (r : Ingredient) :
    formatIngredient (JSValue.ingredient r) =
        " ".toList.intercalate
          ([r.quantity, r.unit.toText, r.name].filter (fun part => !part.isEmpty) ++
            (if r.notes.isEmpty then [] else ["(".toList ++ r.notes ++ ")".toList])) ∧
      formatIngredient (JSValue.ingredient
        { quantity := [], unit := UnitValue.text [], name := [], notes := [],
          original := r.original }) = [] ∧
      formatIngredient (JSValue.ingredient
        { quantity := "2".toList, unit := UnitValue.text "cup".toList, name := "flour".toList,
          notes := "sifted".toList, original := [] }) = "2 cup flour (sifted)".toList ∧
      formatIngredient JSValue.null = [] ∧ formatIngredient JSValue.undefined = [] :=
  ⟨formatIngredient_ingredient r, rfl, by decide, rfl, rfl⟩

/-- On strings and records `ingredientsToStrings` maps every element to its display string. -/
theorem mapStrings_eq_map_displayString (xs : List JSValue)
    (h : ∀ x ∈ xs, (∃ s, x = JSValue.string s) ∨ ∃ r, x = JSValue.ingredient r) :
    mapStrings ingredientToString xs = Except.ok (xs.map displayString) := by
  induction xs with
  | nil => rfl
  | cons x t ih =>
    have ht := ih (fun y hy => h y (List.mem_cons_of_mem x hy))
    rcases h x (List.mem_cons_self x t) with ⟨s, rfl⟩ | ⟨r, rfl⟩
    · simp only [mapStrings, ingredientToString, ht, List.map_cons, displayString]
    · have hx : ingredientToString (JSValue.ingredient r) =
          Except.ok (displayString (JSValue.ingredient r)) := by
        simp only [ingredientToString, displayString, formatIngredient_ingredient]
        cases ho : r.original <;> simp
      simp only [mapStrings, hx, ht, List.map_cons]

/-- Claim C19: on an array of plain strings and structured records `ingredientsToStrings`
returns, element for element in the same order, the string itself for a plain string, the
`original` for a record whose `original` is not empty, and `formatIngredient` of the record
for any other record; the result is as long as the array, and an array of plain strings is
returned unchanged. -/
theorem ingredientsToStrings_spec (xs : List JSValue)
    (h : ∀ x ∈ xs, (∃ s, x = JSValue.string s) ∨ ∃ r, x = JSValue.ingredient r) :
    ∃ out, ingredientsToStrings (JSArg.array xs) = Except.ok out ∧
      out.length = xs.length ∧
      (∀ (i : Nat) s, xs[i]? = some (JSValue.string s) → out[i]? = some s) ∧
      (∀ (i : Nat) r, xs[i]? = some (JSValue.ingredient r) → r.original ≠ [] →
        out[i]? = some r.original) ∧
      (∀ (i : Nat) r, xs[i]? = some (JSValue.ingredient r) → r.original = [] →
        out[i]? = some (formatIngredient (JSValue.ingredient r))) ∧
      (∀ ss : List JSString, xs = ss.map JSValue.string → out = ss) := by
  refine ⟨xs.map displayString, mapStrings_eq_map_displayString xs h, by simp, ?_, ?_, ?_, ?_⟩
  · intro i s hi
    simp [List.getElem?_map, hi, displayString]
  · intro i r hi ho
    simp [List.getElem?_map, hi, displayString, ho]
  · intro i r hi ho
    simp [List.getElem?_map, hi, displayString, ho, formatIngredient_ingredient]
  · intro ss hss
    subst hss
    simp [List.map_map, Function.comp_def, displayString]

/-- Claim C19 at an array of a plain string, a record with an `original` and a record
without one. -/
theorem ingredientsToStrings_spec_witness :
    (∀ x ∈ [JSValue.string "3 eggs".toList,
          JSValue.ingredient (Ingredient.mk "2".toList (UnitValue.text "cup".toList)
            "flour".toList [] "2 cups flour".toList),
          JSValue.ingredient (Ingredient.mk "1".toList (UnitValue.text "cup".toList)
            "milk".toList [] [])],
        (∃ s, x = JSValue.string s) ∨ ∃ r, x = JSValue.ingredient r) ∧
      ∃ out, ingredientsToStrings (JSArg.array [JSValue.string "3 eggs".toList,
          JSValue.ingredient (Ingredient.mk "2".toList (UnitValue.text "cup".toList)
            "flour".toList [] "2 cups flour".toList),
          JSValue.ingredient (Ingredient.mk "1".toList (UnitValue.text "cup".toList)
            "milk".toList [] [])]) = Except.ok out ∧
        out.length = 3 ∧ out[1]? = some "2 cups flour".toList ∧
        out[2]? = some "1 cup milk".toList := by
  have hx : ∀ x ∈ [JSValue.string "3 eggs".toList,
          JSValue.ingredient (Ingredient.mk "2".toList (UnitValue.text "cup".toList)
            "flour".toList [] "2 cups flour".toList),
          JSValue.ingredient (Ingredient.mk "1".toList (UnitValue.text "cup".toList)
            "milk".toList [] [])],
        (∃ s, x = JSValue.string s) ∨ ∃ r, x = JSValue.ingredient r := by
    intro x hx
    simp only [List.mem_cons, List.mem_singleton, List.not_mem_nil, or_false] at hx
    rcases hx with rfl | rfl | rfl
    · exact Or.inl ⟨_, rfl⟩
    · exact Or.inr ⟨_, rfl⟩
    · exact Or.inr ⟨_, rfl⟩
  obtain ⟨out, ho, hl, _, h1, h2, _⟩ := ingredientsToStrings_spec _ hx
  exact ⟨hx, out, ho, hl, h1 1 _ rfl (by decide), (h2 2 _ rfl rfl).trans (by decide)⟩

/-! ## Properties of the shopping list -/

/-- Every label `categorizeIngredient` returns is a key of `categories`. -/
theorem categorizeName_mem (name : JSString) : categorizeName name ∈ categoryOrder := by
  unfold categorizeName
  repeat' split
  all_goals decide

/-- The keys of `categories` are distinct. -/
theorem categoryOrder_nodup : categoryOrder.Nodup := by decide

/-- Pushing under a key of a keyed list with distinct keys extends the array of that key and
leaves the others. -/
theorem pushItem_map (category : JSString) (item : ShoppingItem) (keys : List JSString)
    (hnd : keys.Nodup) (hmem : category ∈ keys) (f : JSString → List ShoppingItem) :
    pushItem category item (keys.map (fun k => (k, f k))) =
      some (keys.map (fun k => (k, if k = category then f k ++ [item] else f k))) := by
  induction keys with
  | nil => exact absurd hmem (List.not_mem_nil _)
  | cons k ks ih =>
    obtain ⟨hk, hks⟩ := List.nodup_cons.1 hnd
    by_cases hkc : k = category
    · subst hkc
      have hrest : ks.map (fun k' => (k', if k' = k then f k' ++ [item] else f k')) =
          ks.map (fun k' => (k', f k')) := by
        apply List.map_congr_left
        intro k' hk'
        have : k' ≠ k := fun e => hk (e ▸ hk')
        simp [this]
      simp [pushItem, hrest]
    · have hmem' : category ∈ ks := by
        rcases List.mem_cons.1 hmem with h | h
        · exact absurd h.symm hkc
        · exact h
      simp [pushItem, hkc, ih hks hmem']

/-- The items under a label after one more ingredient at the front. -/
theorem itemsIn_cons (label : JSString) (r : Ingredient) (rs : List Ingredient) :
    itemsIn label (r :: rs) =
      if categorizeName (toLowerCase r.name) = label then itemOf r :: itemsIn label rs
      else itemsIn label rs := by
  unfold itemsIn
  by_cases h : categorizeName (toLowerCase r.name) = label
  · simp [List.filter_cons, h]
  · simp [List.filter_cons, h]

/-- The loop over an array of records puts each item under its label, in input order. -/
theorem forEachIngredient_records (rs : List Ingredient) (f : JSString → List ShoppingItem) :
    forEachIngredient (rs.map JSValue.ingredient) (categoryOrder.map (fun k => (k, f k))) =
      Except.ok (categoryOrder.map (fun k => (k, f k ++ itemsIn k rs))) := by
  induction rs generalizing f with
  | nil => simp [forEachIngredient, itemsIn]
  | cons r rs ih =>
    have hpush := pushItem_map (categorizeName (toLowerCase r.name)) (itemOf r) categoryOrder
      categoryOrder_nodup (categorizeName_mem _) f
    have hstep : addIngredient (categoryOrder.map (fun k => (k, f k))) (JSValue.ingredient r) =
        Except.ok (categoryOrder.map (fun k =>
          (k, if k = categorizeName (toLowerCase r.name) then f k ++ [itemOf r] else f k))) := by
      simp only [addIngredient, categorizeIngredient, hpush]
    rw [List.map_cons, forEachIngredient, hstep]
    simp only []
    rw [ih]
    congr 1
    apply List.map_congr_left
    intro k _
    rw [itemsIn_cons]
    by_cases hk : k = categorizeName (toLowerCase r.name)
    · simp [hk]
    · have hk' : ¬ categorizeName (toLowerCase r.name) = k := fun e => hk e.symm
      simp [hk, hk']

/-- The shopping list of an array of records in closed form: the labels in the order of the
keys that have an item, each with its items sorted. -/
theorem generateShoppingList_records (localeCompare : JSString → JSString → Int)
    (rs : List Ingredient) :
    generateShoppingList localeCompare (JSArg.array (rs.map JSValue.ingredient)) =
      Except.ok ((categoryOrder.filter (fun k => decide (itemsIn k rs ≠ []))).map
        (fun k => { category := k, items := sortItems localeCompare (itemsIn k rs) })) := by
  have h := forEachIngredient_records rs (fun _ => [])
  have he : categoryOrder.map (fun k => (k, ([] : List ShoppingItem))) = emptyCategories := by
    decide
  rw [he] at h
  simp only [generateShoppingList, h, List.nil_append, List.filter_map, List.map_map]
  congr 2
  apply List.filter_congr
  intro k _
  cases hk : itemsIn k rs <;> simp [hk]

/-- The loop gets through an array only when every element is a record. -/
theorem records_of_forEachIngredient (xs : List JSValue)
    (categories result : List (JSString × List ShoppingItem))
    (h : forEachIngredient xs categories = Except.ok result) :
    ∃ rs : List Ingredient, xs = rs.map JSValue.ingredient := by
  induction xs generalizing categories with
  | nil => exact ⟨[], rfl⟩
  | cons x t ih =>
    cases x with
    | ingredient r =>
      rw [forEachIngredient] at h
      cases hstep : addIngredient categories (JSValue.ingredient r) with
      | error e => rw [hstep] at h; exact Except.noConfusion h
      | ok categories' =>
        rw [hstep] at h
        obtain ⟨rs, hrs⟩ := ih categories' h
        exact ⟨r :: rs, by rw [hrs]; rfl⟩
    | _ => exact Except.noConfusion h

/-- A key that is not in the list adds nothing. -/
theorem flatMap_ite_of_not_mem {α : Type} (keys : List JSString) (k0 : JSString)
    (h0 : k0 ∉ keys) (a : α) (g : JSString → List α) :
    keys.flatMap (fun k => if k0 = k then a :: g k else g k) = keys.flatMap g := by
  induction keys with
  | nil => rfl
  | cons k ks ih =>
    have hne : ¬ k0 = k := fun e => h0 (e ▸ List.mem_cons_self k ks)
    have h0' : k0 ∉ ks := fun hm => h0 (List.mem_cons_of_mem k hm)
    simp only [List.flatMap_cons, hne, if_false, ih h0']

/-- An element more at the head of the list of one key is an element more of the whole. -/
theorem flatMap_cons_at {α : Type} (keys : List JSString) (hnd : keys.Nodup) (k0 : JSString)
    (h0 : k0 ∈ keys) (a : α) (g : JSString → List α) :
    (keys.flatMap (fun k => if k0 = k then a :: g k else g k)).Perm (a :: keys.flatMap g) := by
  induction keys with
  | nil => exact absurd h0 (List.not_mem_nil _)
  | cons k ks ih =>
    obtain ⟨hk, hks⟩ := List.nodup_cons.1 hnd
    by_cases hkc : k0 = k
    · subst hkc
      simp only [List.flatMap_cons, if_true, flatMap_ite_of_not_mem ks k0 hk a g,
        List.cons_append]
      exact List.Perm.refl _
    · have h0' : k0 ∈ ks := by
        rcases List.mem_cons.1 h0 with h | h
        · exact absurd h hkc
        · exact h
      simp only [List.flatMap_cons, hkc, if_false]
      exact ((ih hks h0').append_left (g k)).trans List.perm_middle

/-- The items of all labels together are the items of all ingredients. -/
theorem flatMap_itemsIn_perm (rs : List Ingredient) :
    (categoryOrder.flatMap (fun k => itemsIn k rs)).Perm (rs.map itemOf) := by
  induction rs with
  | nil =>
    have h : categoryOrder.flatMap (fun k => itemsIn k []) = [] := by decide
    rw [h]
    exact List.Perm.refl _
  | cons r rs ih =>
    have h : (fun k => itemsIn k (r :: rs)) =
        (fun k => if categorizeName (toLowerCase r.name) = k then itemOf r :: itemsIn k rs
          else itemsIn k rs) := by
      funext k
      exact itemsIn_cons k r rs
    rw [h, List.map_cons]
    exact (flatMap_cons_at categoryOrder categoryOrder_nodup _ (categorizeName_mem _)
      (itemOf r) (fun k => itemsIn k rs)).trans (ih.cons _)

/-- Leaving out the keys without elements does not change the elements of all keys. -/
theorem flatMap_filter_ne_nil {α : Type} [DecidableEq α] (keys : List JSString)
    (g : JSString → List α) :
    (keys.filter (fun k => decide (g k ≠ []))).flatMap g = keys.flatMap g := by
  induction keys with
  | nil => rfl
  | cons k ks ih =>
    by_cases h : g k = []
    · simpa [List.filter_cons, h] using ih
    · simpa [List.filter_cons, h] using ih

/-- What `generateShoppingList` returns on an array of records: the labels are the keys with
an item, in the order of the keys, and the items of a label are the sorted items of the
ingredients classified under it. -/
theorem generateShoppingList_structure (localeCompare : JSString → JSString → Int)
    (rs : List Ingredient) :
    ∃ out, generateShoppingList localeCompare (JSArg.array (rs.map JSValue.ingredient)) =
        Except.ok out ∧
      out.map (fun c => c.category) =
        categoryOrder.filter (fun k => decide (itemsIn k rs ≠ [])) ∧
      (∀ c ∈ out, c.items = sortItems localeCompare (itemsIn c.category rs)) ∧
      (out.flatMap (fun c => c.items)).Perm (rs.map itemOf) := by
  refine ⟨_, generateShoppingList_records localeCompare rs, ?_, ?_, ?_⟩
  · simp [List.map_map, Function.comp_def]
  · intro c hc
    obtain ⟨k, _, rfl⟩ := List.mem_map.1 hc
    rfl
  · rw [List.flatMap_map]
    refine List.Perm.trans ?_ (flatMap_itemsIn_perm rs)
    rw [← flatMap_filter_ne_nil categoryOrder (fun k => itemsIn k rs)]
    apply List.Perm.flatMap_left
    intro k _
    exact List.perm_insertionSort _ _

/-- An item is among the items under a label exactly when it comes from an ingredient of that
label. -/
theorem mem_itemsIn (label : JSString) (rs : List Ingredient) (item : ShoppingItem) :
    item ∈ itemsIn label rs ↔
      ∃ r ∈ rs, categorizeName (toLowerCase r.name) = label ∧ itemOf r = item := by
  simp [itemsIn, and_assoc]

/-- Claim C12, at the array with the one plain string "2 cups flour" and at the array with the
one element `null`: `categorizeIngredient` reads `ingredient.name.toLowerCase()` with no test
of the element, which raises a TypeError, so no list is returned, where the claim has a list
and no error. A plain string after a record raises as well. -/
theorem generateShoppingList_raises (localeCompare : JSString → JSString → Int) :
    generateShoppingList localeCompare (JSArg.array [JSValue.string "2 cups flour".toList]) =
        Except.error JSError.typeError ∧
      generateShoppingList localeCompare (JSArg.array [JSValue.null]) =
        Except.error JSError.typeError ∧
      generateShoppingList localeCompare (JSArg.array
        [JSValue.ingredient (Ingredient.mk "2".toList (UnitValue.text "cup".toList)
          "flour".toList [] "2 cups flour".toList), JSValue.string "3 eggs".toList]) =
        Except.error JSError.typeError :=
  ⟨rfl, rfl, rfl⟩

/-- Claim C13: on every array of structured ingredients `generateShoppingList` returns a list
whose items, all categories together, are as a multiset the (name, quantity, unit, original)
tuples of the ingredients, so as many items as ingredients, each ingredient in one category
once, and every item has `checked` false. -/
theorem generateShoppingList_items (localeCompare : JSString → JSString → Int)
    (rs : List Ingredient) :
    ∃ out, generateShoppingList localeCompare (JSArg.array (rs.map JSValue.ingredient)) =
        Except.ok out ∧
      ((out.flatMap (fun c => c.items)).map
          (fun i => (i.name, i.quantity, i.unit, i.original))).Perm
        (rs.map (fun r => (r.name, r.quantity, r.unit, r.original))) ∧
      (out.flatMap (fun c => c.items)).length = rs.length ∧
      ∀ c ∈ out, ∀ i ∈ c.items, i.checked = false := by
  obtain ⟨out, hout, _, _, hperm⟩ := generateShoppingList_structure localeCompare rs
  refine ⟨out, hout, ?_, ?_, ?_⟩
  · have h := hperm.map (fun i => (i.name, i.quantity, i.unit, i.original))
    simpa [List.map_map, Function.comp_def, itemOf] using h
  · simpa using hperm.length_eq
  · intro c hc i hi
    have hmem : i ∈ rs.map itemOf :=
      hperm.mem_iff.1 (List.mem_flatMap.2 ⟨c, hc, hi⟩)
    obtain ⟨r, _, rfl⟩ := List.mem_map.1 hmem
    rfl

/-- Claim C14 as stated fails: two ingredients named "flour" give, whatever the comparison, one
pantry category with two items named "flour", so the names of a category are not distinct. -/
theorem generateShoppingList_not_deduplicated :
    (∀ localeCompare : JSString → JSString → Int,
      ∃ items, generateShoppingList localeCompare (JSArg.array
          [JSValue.ingredient (Ingredient.mk "2".toList (UnitValue.text "cup".toList)
            "flour".toList [] "2 cups flour".toList),
           JSValue.ingredient (Ingredient.mk "1".toList (UnitValue.text "cup".toList)
            "flour".toList [] "1 cup flour".toList)]) =
          Except.ok [ShoppingCategory.mk "pantry".toList items] ∧
        items.map (fun i => i.name) = ["flour".toList, "flour".toList]) ∧
      ¬ (["flour".toList, "flour".toList] : List JSString).Nodup := by
  refine ⟨fun localeCompare => ?_, by decide⟩
  have h := generateShoppingList_records localeCompare
    [Ingredient.mk "2".toList (UnitValue.text "cup".toList) "flour".toList []
      "2 cups flour".toList,
     Ingredient.mk "1".toList (UnitValue.text "cup".toList) "flour".toList []
      "1 cup flour".toList]
  have hk : categoryOrder.filter (fun k => decide (itemsIn k
      [Ingredient.mk "2".toList (UnitValue.text "cup".toList) "flour".toList []
        "2 cups flour".toList,
       Ingredient.mk "1".toList (UnitValue.text "cup".toList) "flour".toList []
        "1 cup flour".toList] ≠ [])) = ["pantry".toList] := by decide
  have hi : itemsIn "pantry".toList
      [Ingredient.mk "2".toList (UnitValue.text "cup".toList) "flour".toList []
        "2 cups flour".toList,
       Ingredient.mk "1".toList (UnitValue.text "cup".toList) "flour".toList []
        "1 cup flour".toList] =
      [ShoppingItem.mk "flour".toList "2".toList (UnitValue.text "cup".toList) false
        "2 cups flour".toList,
       ShoppingItem.mk "flour".toList "1".toList (UnitValue.text "cup".toList) false
        "1 cup flour".toList] := by decide
  rw [hk] at h
  simp only [List.map_cons, List.map_nil, hi] at h
  refine ⟨_, h, ?_⟩
  simp only [sortItems, List.insertionSort, List.orderedInsert]
  split <;> rfl

/-- Claim C14, amended: `generateShoppingList` does not merge items. On every array of
structured ingredients, in each category of the list returned, the items with a given name
are as many as the input ingredients with that name classified into that category. -/
theorem generateShoppingList_name_count (localeCompare : JSString → JSString → Int)
    (rs : List Ingredient) :
    ∃ out, generateShoppingList localeCompare (JSArg.array (rs.map JSValue.ingredient)) =
        Except.ok out ∧
      ∀ c ∈ out, ∀ n : JSString,
        (c.items.filter (fun i => decide (i.name = n))).length =
          (rs.filter (fun r => decide (r.name = n ∧
            categorizeName (toLowerCase r.name) = c.category))).length := by
  obtain ⟨out, hout, _, hitems, _⟩ := generateShoppingList_structure localeCompare rs
  refine ⟨out, hout, ?_⟩
  intro c hc n
  rw [hitems c hc, ← List.countP_eq_length_filter, ← List.countP_eq_length_filter, sortItems,
    (List.perm_insertionSort _ _).countP_eq, itemsIn, List.countP_map, List.countP_filter]
  apply List.countP_congr
  intro r _
  simp [itemOf]

/-- Claim C15: an ingredient whose lower-cased name contains a bakery keyword and no produce,
meat or dairy keyword is classified as bakery, whatever frozen or pantry keywords the name
contains, and `generateShoppingList` lists its item in the category bakery and in no other. -/
theorem generateShoppingList_bakery (localeCompare : JSString → JSString → Int)
    (rs : List Ingredient) (r : Ingredient) (hr : r ∈ rs)
    (hb : someIncluded bakeryKeywords (toLowerCase r.name) = true)
    (hp : someIncluded produceKeywords (toLowerCase r.name) = false)
    (hm : someIncluded meatKeywords (toLowerCase r.name) = false)
    (hd : someIncluded dairyKeywords (toLowerCase r.name) = false) :
    categorizeIngredient (JSValue.ingredient r) = Except.ok "bakery".toList ∧
      ∃ out, generateShoppingList localeCompare (JSArg.array (rs.map JSValue.ingredient)) =
          Except.ok out ∧
        (∃ c ∈ out, c.category = "bakery".toList ∧ itemOf r ∈ c.items) ∧
        ∀ c ∈ out, itemOf r ∈ c.items → c.category = "bakery".toList := by
  have hcat : categorizeName (toLowerCase r.name) = "bakery".toList := by
    simp [categorizeName, hb, hp, hm, hd]
  obtain ⟨out, hout, hlabels, hitems, _⟩ := generateShoppingList_structure localeCompare rs
  refine ⟨by simp [categorizeIngredient, hcat], out, hout, ?_, ?_⟩
  · have hin : itemOf r ∈ itemsIn "bakery".toList rs :=
      (mem_itemsIn _ rs _).2 ⟨r, hr, hcat, rfl⟩
    have hk : "bakery".toList ∈ out.map (fun c => c.category) := by
      rw [hlabels, List.mem_filter]
      exact ⟨by decide, by simpa using List.ne_nil_of_mem hin⟩
    obtain ⟨c, hc, hck⟩ := List.mem_map.1 hk
    refine ⟨c, hc, hck, ?_⟩
    rw [hitems c hc, sortItems, List.mem_insertionSort, hck]
    exact hin
  · intro c hc hmem
    rw [hitems c hc, sortItems, List.mem_insertionSort] at hmem
    obtain ⟨r', _, hcat', heq⟩ := (mem_itemsIn _ rs _).1 hmem
    have hname : r'.name = r.name := congrArg ShoppingItem.name heq
    rw [← hcat', hname, hcat]

/-- Claim C15 at the ingredient named "frozen bread", whose name holds the bakery keyword
"bread", the frozen keyword "frozen" and the pantry keyword "bread": it is listed under
bakery. -/
theorem generateShoppingList_bakery_witness :
    (Ingredient.mk [] (UnitValue.text []) "frozen bread".toList [] "frozen bread".toList ∈
        [Ingredient.mk [] (UnitValue.text []) "frozen bread".toList [] "frozen bread".toList]) ∧
      someIncluded bakeryKeywords (toLowerCase "frozen bread".toList) = true ∧
      someIncluded produceKeywords (toLowerCase "frozen bread".toList) = false ∧
      someIncluded meatKeywords (toLowerCase "frozen bread".toList) = false ∧
      someIncluded dairyKeywords (toLowerCase "frozen bread".toList) = false ∧
      (categorizeIngredient (JSValue.ingredient
          (Ingredient.mk [] (UnitValue.text []) "frozen bread".toList []
            "frozen bread".toList)) = Except.ok "bakery".toList ∧
        ∃ out, generateShoppingList compareCodePoints (JSArg.array
            ([Ingredient.mk [] (UnitValue.text []) "frozen bread".toList []
              "frozen bread".toList].map JSValue.ingredient)) = Except.ok out ∧
          (∃ c ∈ out, c.category = "bakery".toList ∧
            itemOf (Ingredient.mk [] (UnitValue.text []) "frozen bread".toList []
              "frozen bread".toList) ∈ c.items) ∧
          ∀ c ∈ out, itemOf (Ingredient.mk [] (UnitValue.text []) "frozen bread".toList []
              "frozen bread".toList) ∈ c.items → c.category = "bakery".toList) :=
  ⟨List.mem_singleton.2 rfl, by decide, by decide, by decide, by decide,
    generateShoppingList_bakery compareCodePoints
      [Ingredient.mk [] (UnitValue.text []) "frozen bread".toList [] "frozen bread".toList]
      (Ingredient.mk [] (UnitValue.text []) "frozen bread".toList [] "frozen bread".toList)
      (List.mem_singleton.2 rfl) (by decide) (by decide) (by decide) (by decide)⟩

/-- Claim C16: on every array of structured ingredients the labels of the list returned by
`generateShoppingList` are a subsequence of produce, meat, dairy, pantry, bakery, frozen,
other, with no label twice; ingredients named "bread" and "flour" give the labels pantry,
bakery in that order. -/
theorem generateShoppingList_labels (localeCompare : JSString → JSString → Int)
    (rs : List Ingredient) :
    ∃ out, generateShoppingList localeCompare (JSArg.array (rs.map JSValue.ingredient)) =
        Except.ok out ∧
      (out.map (fun c => c.category)).Sublist
        ["produce".toList, "meat".toList, "dairy".toList, "pantry".toList, "bakery".toList,
         "frozen".toList, "other".toList] ∧
      (out.map (fun c => c.category)).Nodup ∧
      ∃ sample, generateShoppingList localeCompare (JSArg.array
          [JSValue.ingredient (Ingredient.mk [] (UnitValue.text []) "bread".toList [] []),
           JSValue.ingredient (Ingredient.mk [] (UnitValue.text []) "flour".toList [] [])]) =
          Except.ok sample ∧
        sample.map (fun c => c.category) = ["pantry".toList, "bakery".toList] := by
  obtain ⟨out, hout, hlabels, _, _⟩ := generateShoppingList_structure localeCompare rs
  have hsub : (out.map (fun c => c.category)).Sublist categoryOrder := by
    rw [hlabels]
    exact List.filter_sublist _
  refine ⟨out, hout, hsub, hsub.nodup categoryOrder_nodup, ?_⟩
  obtain ⟨sample, hs, hl, _, _⟩ := generateShoppingList_structure localeCompare
    [Ingredient.mk [] (UnitValue.text []) "bread".toList [] [],
     Ingredient.mk [] (UnitValue.text []) "flour".toList [] []]
  refine ⟨sample, hs, ?_⟩
  rw [hl]
  decide

/-- Claim C17: whenever `generateShoppingList` returns a list, no category of it has an empty
`items` array, and a label is in the list exactly when an element of the input is classified
under it. For a value that is no array the list is empty. -/
theorem generateShoppingList_nonempty_categories (localeCompare : JSString → JSString → Int)
    (ingredients : JSArg) (out : List ShoppingCategory)
    (h : generateShoppingList localeCompare ingredients = Except.ok out) :
    (∀ c ∈ out, c.items ≠ []) ∧
      ∀ label : JSString, (∃ c ∈ out, c.category = label) ↔
        ∃ x ∈ ingredients.elements, categorizeIngredient x = Except.ok label := by
  cases ingredients with
  | value v =>
    have hout : out = [] := by
      have h' : Except.ok ([] : List ShoppingCategory) = Except.ok out := h
      cases h'
      rfl
    subst hout
    simp [JSArg.elements]
  | array xs =>
    have hrs : ∃ rs : List Ingredient, xs = rs.map JSValue.ingredient := by
      cases hloop : forEachIngredient xs emptyCategories with
      | error e =>
        simp only [generateShoppingList, hloop] at h
        exact Except.noConfusion h
      | ok result => exact records_of_forEachIngredient xs emptyCategories result hloop
    obtain ⟨rs, rfl⟩ := hrs
    obtain ⟨out', hout, hlabels, hitems, _⟩ := generateShoppingList_structure localeCompare rs
    rw [hout] at h
    rw [← Except.ok.inj h]
    have hne : ∀ c ∈ out', itemsIn c.category rs ≠ [] := by
      intro c hc
      have hk : c.category ∈ out'.map (fun c => c.category) := List.mem_map.2 ⟨c, hc, rfl⟩
      rw [hlabels, List.mem_filter] at hk
      simpa using hk.2
    constructor
    · intro c hc he
      have hlen := congrArg List.length (hitems c hc)
      rw [he, sortItems, List.length_insertionSort] at hlen
      exact hne c hc (List.length_eq_zero.1 hlen.symm)
    · intro label
      constructor
      · rintro ⟨c, hc, rfl⟩
        obtain ⟨item, hitem⟩ := List.exists_mem_of_ne_nil _ (hne c hc)
        obtain ⟨r, hr, hcat, _⟩ := (mem_itemsIn _ rs _).1 hitem
        exact ⟨JSValue.ingredient r, List.mem_map.2 ⟨r, hr, rfl⟩,
          by simp [categorizeIngredient, hcat]⟩
      · rintro ⟨x, hx, hcat⟩
        obtain ⟨r, hr, rfl⟩ := List.mem_map.1 hx
        have hcat' : categorizeName (toLowerCase r.name) = label := by
          simpa [categorizeIngredient] using hcat
        have hin : itemOf r ∈ itemsIn label rs := (mem_itemsIn _ rs _).2 ⟨r, hr, hcat', rfl⟩
        have hk : label ∈ out'.map (fun c => c.category) := by
          rw [hlabels, List.mem_filter]
          exact ⟨hcat' ▸ categorizeName_mem _, by simpa using List.ne_nil_of_mem hin⟩
        obtain ⟨c, hc, hck⟩ := List.mem_map.1 hk
        exact ⟨c, hc, hck⟩

/-- Claim C17 at the array of the ingredients "milk" and "flour". -/
theorem generateShoppingList_nonempty_categories_witness :
    generateShoppingList compareCodePoints (JSArg.array
        [JSValue.ingredient (Ingredient.mk [] (UnitValue.text []) "milk".toList [] []),
         JSValue.ingredient (Ingredient.mk [] (UnitValue.text []) "flour".toList [] [])]) =
      Except.ok
        [ShoppingCategory.mk "dairy".toList
          [ShoppingItem.mk "milk".toList [] (UnitValue.text []) false []],
         ShoppingCategory.mk "pantry".toList
          [ShoppingItem.mk "flour".toList [] (UnitValue.text []) false []]] ∧
      ((∀ c ∈ [ShoppingCategory.mk "dairy".toList
            [ShoppingItem.mk "milk".toList [] (UnitValue.text []) false []],
          ShoppingCategory.mk "pantry".toList
            [ShoppingItem.mk "flour".toList [] (UnitValue.text []) false []]], c.items ≠ []) ∧
        ∀ label : JSString,
          (∃ c ∈ [ShoppingCategory.mk "dairy".toList
              [ShoppingItem.mk "milk".toList [] (UnitValue.text []) false []],
            ShoppingCategory.mk "pantry".toList
              [ShoppingItem.mk "flour".toList [] (UnitValue.text []) false []]],
            c.category = label) ↔
          ∃ x ∈ (JSArg.array
              [JSValue.ingredient (Ingredient.mk [] (UnitValue.text []) "milk".toList [] []),
               JSValue.ingredient (Ingredient.mk [] (UnitValue.text []) "flour".toList []
                [])]).elements,
            categorizeIngredient x = Except.ok label) :=
  ⟨by decide, generateShoppingList_nonempty_categories compareCodePoints _ _ (by decide)⟩

/-- The sample comparison puts any two strings in order, one way or the other. -/
theorem compareCodePoints_total (a b : JSString) :
    compareCodePoints a b ≤ 0 ∨ compareCodePoints b a ≤ 0 := by
  induction a generalizing b with
  | nil => cases b <;> simp [compareCodePoints]
  | cons x xs ih =>
    cases b with
    | nil => simp [compareCodePoints]
    | cons y ys =>
      simp only [compareCodePoints]
      by_cases h1 : x.toNat < y.toNat
      · simp [h1]
      · by_cases h2 : y.toNat < x.toNat
        · simp [h1, h2]
        · simp only [h1, h2, if_false]
          exact ih ys

/-- The sample comparison is transitive. -/
theorem compareCodePoints_trans (a b c : JSString)
    (hab : compareCodePoints a b ≤ 0) (hbc : compareCodePoints b c ≤ 0) :
    compareCodePoints a c ≤ 0 := by
  induction a generalizing b c with
  | nil => cases c <;> simp [compareCodePoints]
  | cons x xs ih =>
    cases b with
    | nil => simp [compareCodePoints] at hab
    | cons y ys =>
      cases c with
      | nil => simp [compareCodePoints] at hbc
      | cons z zs =>
        simp only [compareCodePoints] at hab hbc ⊢
        by_cases h1 : x.toNat < y.toNat
        · by_cases h2 : y.toNat < z.toNat
          · have h3 : x.toNat < z.toNat := by omega
            simp [h3]
          · by_cases h2' : z.toNat < y.toNat
            · simp [h2, h2'] at hbc
            · have h3 : x.toNat < z.toNat := by omega
              simp [h3]
        · by_cases h1' : y.toNat < x.toNat
          · simp [h1, h1'] at hab
          · simp only [h1, h1', if_false] at hab
            by_cases h2 : y.toNat < z.toNat
            · have h3 : x.toNat < z.toNat := by omega
              simp [h3]
            · by_cases h2' : z.toNat < y.toNat
              · simp [h2, h2'] at hbc
              · simp only [h2, h2', if_false] at hbc
                have h3 : ¬ x.toNat < z.toNat := by omega
                have h3' : ¬ z.toNat < x.toNat := by omega
                simp only [h3, h3', if_false]
                exact ih ys zs hab hbc

/-- Claim C18: for a string comparison that is a consistent order (any two names are in order
one way or the other, and the order is transitive), on every array of structured ingredients
the items of every category in the output of `generateShoppingList` are in non-decreasing
order of name: each item compares as at most equal to every later one. -/
theorem generateShoppingList_sorted (localeCompare : JSString → JSString → Int)
    (htotal : ∀ a b, localeCompare a b ≤ 0 ∨ localeCompare b a ≤ 0)
    (htrans : ∀ a b c, localeCompare a b ≤ 0 → localeCompare b c ≤ 0 → localeCompare a c ≤ 0)
    (rs : List Ingredient) :
    ∃ out, generateShoppingList localeCompare (JSArg.array (rs.map JSValue.ingredient)) =
        Except.ok out ∧
      ∀ c ∈ out, c.items.Pairwise (fun a b => localeCompare a.name b.name ≤ 0) := by
  obtain ⟨out, hout, _, hitems, _⟩ := generateShoppingList_structure localeCompare rs
  refine ⟨out, hout, ?_⟩
  intro c hc
  rw [hitems c hc, sortItems]
  haveI : IsTotal ShoppingItem (fun a b => localeCompare a.name b.name ≤ 0) :=
    ⟨fun a b => htotal a.name b.name⟩
  haveI : IsTrans ShoppingItem (fun a b => localeCompare a.name b.name ≤ 0) :=
    ⟨fun a b c => htrans a.name b.name c.name⟩
  exact List.sorted_insertionSort (fun a b : ShoppingItem => localeCompare a.name b.name ≤ 0) _

/-- Claim C18 for the comparison by code point, at the ingredients "sugar", "flour" and
"salt". -/
theorem generateShoppingList_sorted_witness :
    (∀ a b, compareCodePoints a b ≤ 0 ∨ compareCodePoints b a ≤ 0) ∧
      (∀ a b c, compareCodePoints a b ≤ 0 → compareCodePoints b c ≤ 0 →
        compareCodePoints a c ≤ 0) ∧
      ∃ out, generateShoppingList compareCodePoints (JSArg.array
          ([Ingredient.mk [] (UnitValue.text []) "sugar".toList [] [],
            Ingredient.mk [] (UnitValue.text []) "flour".toList [] [],
            Ingredient.mk [] (UnitValue.text []) "salt".toList [] []].map
              JSValue.ingredient)) = Except.ok out ∧
        ∀ c ∈ out, c.items.Pairwise (fun a b => compareCodePoints a.name b.name ≤ 0) :=
  ⟨compareCodePoints_total, compareCodePoints_trans,
    generateShoppingList_sorted compareCodePoints compareCodePoints_total
      compareCodePoints_trans _⟩

/-! ## Properties of the unit and of the split of name and notes -/

/-- Claim C22, at the short form "tbs": the final `s` is removed before the table is read, the
table has no key "tb", and `cleanUnit` returns "tb" where the claim has "tablespoon"; the key
"tbs" of the table can never be read. The fifteen other short forms get their full names. -/
theorem cleanUnit_table :
    cleanUnit (some "tbs".toList) = UnitValue.text "tb".toList ∧
      cleanUnit (some "tbsp".toList) = UnitValue.text "tablespoon".toList ∧
      cleanUnit (some "tbl".toList) = UnitValue.text "tablespoon".toList ∧
      cleanUnit (some "tsp".toList) = UnitValue.text "teaspoon".toList ∧
      cleanUnit (some "t".toList) = UnitValue.text "teaspoon".toList ∧
      cleanUnit (some "oz".toList) = UnitValue.text "ounce".toList ∧
      cleanUnit (some "lbs".toList) = UnitValue.text "pound".toList ∧
      cleanUnit (some "lb".toList) = UnitValue.text "pound".toList ∧
      cleanUnit (some "g".toList) = UnitValue.text "gram".toList ∧
      cleanUnit (some "kg".toList) = UnitValue.text "kilogram".toList ∧
      cleanUnit (some "ml".toList) = UnitValue.text "milliliter".toList ∧
      cleanUnit (some "l".toList) = UnitValue.text "liter".toList ∧
      cleanUnit (some "c".toList) = UnitValue.text "cup".toList ∧
      cleanUnit (some "pt".toList) = UnitValue.text "pint".toList ∧
      cleanUnit (some "qt".toList) = UnitValue.text "quart".toList ∧
      cleanUnit (some "gal".toList) = UnitValue.text "gallon".toList := by
  decide

/-- Claim C30, at the line "2 a ss": the unit segment is "a s", `cleanUnit` trims it first and
removes the final `s` afterwards, and the unit of the record is "a " with a blank at its end,
where the claim has no trailing whitespace. -/
theorem parseIngredient_unit_trailing_blank :
    parseIngredient (JSValue.string "2 a ss".toList) =
      some { quantity := "2".toList, unit := UnitValue.text "a ".toList, name := "s".toList,
             notes := [], original := "2 a ss".toList } := by
  decide

/-- Claim C23 as stated fails: in "tomatoes - ripe, diced" the hyphen comes first, at index 9,
but the comma is first in the list, and the split is at the comma, at index 15: the name is
"tomatoes - ripe", not "tomatoes". -/
theorem parseNameAndNotes_not_lowest_index :
    indexOf (toLowerCase "tomatoes - ripe, diced".toList) "-".toList = some 9 ∧
      indexOf (toLowerCase "tomatoes - ripe, diced".toList) ",".toList = some 15 ∧
      parseNameAndNotes "tomatoes - ripe, diced".toList =
        { name := "tomatoes - ripe".toList, notes := ", diced".toList } := by
  decide

/-- The index `indexOf` finds is the one of the first occurrence. -/
theorem indexOfFrom_eq_some (needle s : JSString) (i k : Nat)
    (h : indexOfFrom needle s i = some k) :
    i ≤ k ∧ needle <+: s.drop (k - i) ∧ ∀ j, j < k - i → ¬ needle <+: s.drop j := by
  induction s generalizing i with
  | nil =>
    simp only [indexOfFrom] at h
    split at h
    · cases h
      rename_i hn
      have hn' : needle = [] := by simpa using hn
      subst hn'
      simp
    · exact Option.noConfusion h
  | cons c cs ih =>
    simp only [indexOfFrom] at h
    split at h
    · cases h
      rename_i hp
      refine ⟨Nat.le_refl _, ?_, ?_⟩
      · simpa using List.isPrefixOf_iff_prefix.1 hp
      · intro j hj
        omega
    · rename_i hp
      obtain ⟨h1, h2, h3⟩ := ih (i + 1) h
      have hk : k - i = (k - (i + 1)) + 1 := by omega
      refine ⟨by omega, ?_, ?_⟩
      · rw [hk, List.drop_succ_cons]
        exact h2
      · intro j hj
        cases j with
        | zero =>
          intro hpre
          exact hp (List.isPrefixOf_iff_prefix.2 (by simpa using hpre))
        | succ j =>
          rw [List.drop_succ_cons]
          exact h3 j (by omega)

/-- The loop over the separators stops at the first separator of the list whose first
occurrence is at an index above 0. -/
theorem findSeparator_spec (cleaned : JSString) (seps : List JSString) :
    (∃ pre sep post i, seps = pre ++ sep :: post ∧
        (∀ s ∈ pre, indexOf (toLowerCase cleaned) s = none ∨
          indexOf (toLowerCase cleaned) s = some 0) ∧
        indexOf (toLowerCase cleaned) sep = some i ∧ 0 < i ∧
        findSeparator cleaned seps = some i) ∨
      ((∀ s ∈ seps, indexOf (toLowerCase cleaned) s = none ∨
          indexOf (toLowerCase cleaned) s = some 0) ∧
        findSeparator cleaned seps = none) := by
  induction seps with
  | nil => exact Or.inr ⟨fun _ h => absurd h (List.not_mem_nil _), rfl⟩
  | cons sep rest ih =>
    cases hi : indexOf (toLowerCase cleaned) sep with
    | none =>
      have hf : findSeparator cleaned (sep :: rest) = findSeparator cleaned rest := by
        simp only [findSeparator, hi]
      rcases ih with ⟨pre, sep', post, i, hs, hpre, hidx, hpos, hfind⟩ | ⟨hall, hfind⟩
      · refine Or.inl ⟨sep :: pre, sep', post, i, by rw [hs]; rfl, ?_, hidx, hpos, hf ▸ hfind⟩
        intro s hs'
        rcases List.mem_cons.1 hs' with rfl | hs'
        · exact Or.inl hi
        · exact hpre s hs'
      · refine Or.inr ⟨?_, hf ▸ hfind⟩
        intro s hs'
        rcases List.mem_cons.1 hs' with rfl | hs'
        · exact Or.inl hi
        · exact hall s hs'
    | some k =>
      by_cases hk : 0 < k
      · refine Or.inl ⟨[], sep, rest, k, rfl, fun _ h => absurd h (List.not_mem_nil _), hi, hk, ?_⟩
        simp only [findSeparator, hi, hk, if_true]
      · have hk0 : k = 0 := by omega
        subst hk0
        have hf : findSeparator cleaned (sep :: rest) = findSeparator cleaned rest := by
          simp only [findSeparator, hi, Nat.lt_irrefl, if_false]
        rcases ih with ⟨pre, sep', post, i, hs, hpre, hidx, hpos, hfind⟩ | ⟨hall, hfind⟩
        · refine Or.inl ⟨sep :: pre, sep', post, i, by rw [hs]; rfl, ?_, hidx, hpos,
            hf ▸ hfind⟩
          intro s hs'
          rcases List.mem_cons.1 hs' with rfl | hs'
          · exact Or.inr hi
          · exact hpre s hs'
        · refine Or.inr ⟨?_, hf ▸ hfind⟩
          intro s hs'
          rcases List.mem_cons.1 hs' with rfl | hs'
          · exact Or.inr hi
          · exact hall s hs'

/-- Claim C23, amended: `parseNameAndNotes` goes through the separators in the order of the
list (comma, "(", "-", "for", "chopped", "diced", "sliced", "minced", "grated") and splits at
the first occurrence of the first of them that occurs in the lower-cased text with its first
occurrence at an index above 0, whatever separators occur earlier in the text: the name is the
trimmed text before that index, the notes are the text from that index on, trimmed and
without an outer parenthesis; when no separator has its first occurrence above 0 the name is
the whole trimmed text and the notes are empty. In "tomatoes - ripe, diced" the split is at
the comma and the name is "tomatoes - ripe". -/
theorem parseNameAndNotes_first_listed (nameStr : JSString) :
    ((∃ pre sep post i, separators = pre ++ sep :: post ∧
        (∀ s ∈ pre, indexOf (toLowerCase (trim nameStr)) s = none ∨
          indexOf (toLowerCase (trim nameStr)) s = some 0) ∧
        indexOf (toLowerCase (trim nameStr)) sep = some i ∧ 0 < i ∧
        sep <+: (toLowerCase (trim nameStr)).drop i ∧
        (∀ j, j < i → ¬ sep <+: (toLowerCase (trim nameStr)).drop j) ∧
        (parseNameAndNotes nameStr).name = trim ((trim nameStr).take i) ∧
        (parseNameAndNotes nameStr).notes =
          trim (stripParens (trim ((trim nameStr).drop i)))) ∨
      ((∀ s ∈ separators, indexOf (toLowerCase (trim nameStr)) s = none ∨
          indexOf (toLowerCase (trim nameStr)) s = some 0) ∧
        (parseNameAndNotes nameStr).name = trim nameStr ∧
        (parseNameAndNotes nameStr).notes = [])) ∧
      parseNameAndNotes "tomatoes - ripe, diced".toList =
        { name := "tomatoes - ripe".toList, notes := ", diced".toList } := by
  refine ⟨?_, by decide⟩
  cases nameStr with
  | nil => exact Or.inr ⟨by decide, rfl, rfl⟩
  | cons c cs =>
    unfold parseNameAndNotes
    generalize trim (c :: cs) = t
    rw [if_neg (by simp)]
    dsimp only
    rcases findSeparator_spec t separators with
      ⟨pre, sep, post, i, hs, hpre, hidx, hpos, hfind⟩ | ⟨hall, hfind⟩
    · obtain ⟨_, h2, h3⟩ := indexOfFrom_eq_some sep (toLowerCase t) 0 i hidx
      refine Or.inl ⟨pre, sep, post, i, hs, hpre, hidx, hpos, by simpa using h2, ?_, ?_, ?_⟩
      · intro j hj
        exact h3 j (by omega)
      · rw [hfind]
      · rw [hfind]
    · refine Or.inr ⟨hall, ?_, ?_⟩
      · rw [hfind]
      · rw [hfind]
        rfl

/-! ## Properties of the classification -/

/-- The test `includes` is the test for an infix. -/
theorem indexOfFrom_isSome_iff (needle s : JSString) (i : Nat) :
    (indexOfFrom needle s i).isSome = true ↔ needle <:+: s := by
  induction s generalizing i with
  | nil =>
    simp only [indexOfFrom, List.infix_nil]
    cases needle <;> simp
  | cons c cs ih =>
    simp only [indexOfFrom, List.infix_cons_iff]
    by_cases hp : needle.isPrefixOf (c :: cs) = true
    · simp only [hp, if_true, Option.isSome_some, true_iff]
      exact Or.inl (List.isPrefixOf_iff_prefix.1 hp)
    · have hp' : needle.isPrefixOf (c :: cs) = false := Bool.eq_false_iff.2 hp
      simp only [hp', Bool.false_eq_true, if_false, ih]
      constructor
      · exact Or.inr
      · rintro (h | h)
        · exact absurd (List.isPrefixOf_iff_prefix.2 h) hp
        · exact h

/-- A text that includes a keyword includes every part of the keyword. -/
theorem includes_of_infix (s keyword part : JSString) (h : includes s keyword = true)
    (hp : part <:+: keyword) : includes s part = true := by
  unfold includes indexOf at *
  exact (indexOfFrom_isSome_iff part s 0).2 (hp.trans ((indexOfFrom_isSome_iff keyword s 0).1 h))

/-- A text that includes a keyword of a list passes the test of the list. -/
theorem someIncluded_of_mem (keywords : List JSString) (name keyword : JSString)
    (hk : keyword ∈ keywords) (h : includes name keyword = true) :
    someIncluded keywords name = true :=
  List.any_eq_true.2 ⟨keyword, hk, h⟩

/-- The item of an ingredient of the array is listed under the label of the ingredient and
under no other label. -/
theorem generateShoppingList_places (localeCompare : JSString → JSString → Int)
    (rs : List Ingredient) (r : Ingredient) (hr : r ∈ rs) :
    ∃ out, generateShoppingList localeCompare (JSArg.array (rs.map JSValue.ingredient)) =
        Except.ok out ∧
      (∃ c ∈ out, c.category = categorizeName (toLowerCase r.name) ∧ itemOf r ∈ c.items) ∧
      ∀ c ∈ out, itemOf r ∈ c.items → c.category = categorizeName (toLowerCase r.name) := by
  obtain ⟨out, hout, hlabels, hitems, _⟩ := generateShoppingList_structure localeCompare rs
  refine ⟨out, hout, ?_, ?_⟩
  · have hin : itemOf r ∈ itemsIn (categorizeName (toLowerCase r.name)) rs :=
      (mem_itemsIn _ rs _).2 ⟨r, hr, rfl, rfl⟩
    have hk : categorizeName (toLowerCase r.name) ∈ out.map (fun c => c.category) := by
      rw [hlabels, List.mem_filter]
      exact ⟨categorizeName_mem _, by simpa using List.ne_nil_of_mem hin⟩
    obtain ⟨c, hc, hck⟩ := List.mem_map.1 hk
    refine ⟨c, hc, hck, ?_⟩
    rw [hitems c hc, sortItems, List.mem_insertionSort, hck]
    exact hin
  · intro c hc hmem
    rw [hitems c hc, sortItems, List.mem_insertionSort] at hmem
    obtain ⟨r', _, hcat', heq⟩ := (mem_itemsIn _ rs _).1 hmem
    have hname : r'.name = r.name := congrArg ShoppingItem.name heq
    rw [← hcat', hname]

/-- Claim C24: an ingredient whose lower-cased name contains a produce keyword anywhere is
classified as produce, whatever other keywords the name contains, and `generateShoppingList`
lists its item in the category produce and in no other. -/
theorem generateShoppingList_produce (localeCompare : JSString → JSString → Int)
    (rs : List Ingredient) (r : Ingredient) (hr : r ∈ rs) (keyword : JSString)
    (hk : keyword ∈ produceKeywords) (hp : includes (toLowerCase r.name) keyword = true) :
    categorizeIngredient (JSValue.ingredient r) = Except.ok "produce".toList ∧
      ∃ out, generateShoppingList localeCompare (JSArg.array (rs.map JSValue.ingredient)) =
          Except.ok out ∧
        (∃ c ∈ out, c.category = "produce".toList ∧ itemOf r ∈ c.items) ∧
        ∀ c ∈ out, itemOf r ∈ c.items → c.category = "produce".toList := by
  have hcat : categorizeName (toLowerCase r.name) = "produce".toList := by
    simp [categorizeName, someIncluded_of_mem produceKeywords _ keyword hk hp]
  have h := generateShoppingList_places localeCompare rs r hr
  rw [hcat] at h
  exact ⟨by simp [categorizeIngredient, hcat], h⟩

/-- Claim C24 at the ingredient named "Peppermint extract", whose lower-cased name holds the
produce keyword "mint" inside a longer word. -/
theorem generateShoppingList_produce_witness :
    (Ingredient.mk [] (UnitValue.text []) "Peppermint extract".toList [] [] ∈
        [Ingredient.mk [] (UnitValue.text []) "Pineapple".toList [] [],
         Ingredient.mk [] (UnitValue.text []) "Peppermint extract".toList [] []]) ∧
      "mint".toList ∈ produceKeywords ∧
      includes (toLowerCase "Peppermint extract".toList) "mint".toList = true ∧
      (categorizeIngredient (JSValue.ingredient
          (Ingredient.mk [] (UnitValue.text []) "Peppermint extract".toList [] [])) =
          Except.ok "produce".toList ∧
        ∃ out, generateShoppingList compareCodePoints (JSArg.array
            ([Ingredient.mk [] (UnitValue.text []) "Pineapple".toList [] [],
              Ingredient.mk [] (UnitValue.text []) "Peppermint extract".toList [] []].map
                JSValue.ingredient)) = Except.ok out ∧
          (∃ c ∈ out, c.category = "produce".toList ∧
            itemOf (Ingredient.mk [] (UnitValue.text []) "Peppermint extract".toList [] []) ∈
              c.items) ∧
          ∀ c ∈ out,
            itemOf (Ingredient.mk [] (UnitValue.text []) "Peppermint extract".toList [] []) ∈
              c.items → c.category = "produce".toList) :=
  ⟨by decide, by decide, by decide,
    generateShoppingList_produce compareCodePoints
      [Ingredient.mk [] (UnitValue.text []) "Pineapple".toList [] [],
       Ingredient.mk [] (UnitValue.text []) "Peppermint extract".toList [] []]
      (Ingredient.mk [] (UnitValue.text []) "Peppermint extract".toList [] [])
      (by decide) "mint".toList (by decide) (by decide)⟩

/-- Claim C29: an ingredient whose lower-cased name contains "ice cream" is never classified
as frozen, since "cream" is a dairy keyword tested earlier, and one whose lower-cased name
contains "bread" or "pepper" is never classified as pantry, "bread" being a bakery keyword and
"pepper" a produce keyword, both tested earlier; yet "ice cream" is in the frozen list and
"bread" and "pepper" are in the pantry list. -/
theorem categorizeIngredient_shadowed (r : Ingredient) :
    (includes (toLowerCase r.name) "ice cream".toList = true →
        categorizeIngredient (JSValue.ingredient r) ≠ Except.ok "frozen".toList) ∧
      (includes (toLowerCase r.name) "bread".toList = true ∨
          includes (toLowerCase r.name) "pepper".toList = true →
        categorizeIngredient (JSValue.ingredient r) ≠ Except.ok "pantry".toList) ∧
      "ice cream".toList ∈ frozenKeywords ∧ "bread".toList ∈ pantryKeywords ∧
      "pepper".toList ∈ pantryKeywords := by
  refine ⟨?_, ?_, by decide, by decide, by decide⟩
  · intro h
    have hcream : includes (toLowerCase r.name) "cream".toList = true :=
      includes_of_infix _ _ _ h ⟨"ice ".toList, [], by decide⟩
    have hd : someIncluded dairyKeywords (toLowerCase r.name) = true :=
      someIncluded_of_mem dairyKeywords _ _ (by decide) hcream
    simp only [categorizeIngredient, categorizeName, hd, if_true]
    intro he
    have he' := Except.ok.inj he
    split at he'
    · exact absurd he' (by decide)
    · split at he'
      · exact absurd he' (by decide)
      · exact absurd he' (by decide)
  · intro h
    simp only [categorizeIngredient, categorizeName]
    intro he
    have he' := Except.ok.inj he
    rcases h with h | h
    · have hb : someIncluded bakeryKeywords (toLowerCase r.name) = true :=
        someIncluded_of_mem bakeryKeywords _ _ (by decide) h
      simp only [hb, if_true] at he'
      split at he'
      · exact absurd he' (by decide)
      · split at he'
        · exact absurd he' (by decide)
        · split at he'
          · exact absurd he' (by decide)
          · exact absurd he' (by decide)
    · have hp : someIncluded produceKeywords (toLowerCase r.name) = true :=
        someIncluded_of_mem produceKeywords _ _ (by decide) h
      simp only [hp, if_true] at he'
      exact absurd he' (by decide)

/-- Claim C29 at the names "vanilla ice cream", "frozen bread" and "black pepper": classified
as dairy, bakery and produce. -/
theorem categorizeIngredient_shadowed_witness :
    includes (toLowerCase "vanilla ice cream".toList) "ice cream".toList = true ∧
      categorizeIngredient (JSValue.ingredient
        (Ingredient.mk [] (UnitValue.text []) "vanilla ice cream".toList [] [])) ≠
        Except.ok "frozen".toList ∧
      (includes (toLowerCase "black pepper".toList) "bread".toList = true ∨
        includes (toLowerCase "black pepper".toList) "pepper".toList = true) ∧
      categorizeIngredient (JSValue.ingredient
        (Ingredient.mk [] (UnitValue.text []) "black pepper".toList [] [])) ≠
        Except.ok "pantry".toList :=
  ⟨by decide,
    (categorizeIngredient_shadowed
      (Ingredient.mk [] (UnitValue.text []) "vanilla ice cream".toList [] [])).1 (by decide),
    by decide,
    (categorizeIngredient_shadowed
      (Ingredient.mk [] (UnitValue.text []) "black pepper".toList [] [])).2.1 (by decide)⟩

/-! ## The round trip of the edit form -/

/-- On an array of strings `parseIngredients` keeps the elements that parse. -/
theorem parseIngredients_array_eq_filterMap (xs : List JSString) :
    parseIngredients (JSArg.array (xs.map JSValue.string)) =
      xs.filterMap (fun s => parseIngredient (JSValue.string s)) := by
  show ((xs.map JSValue.string).map parseIngredient).reduceOption = _
  rw [List.map_map, List.reduceOption, List.filterMap_map]
  rfl

/-- Claim C28: for every array of strings each with a character that is not whitespace, the
strings `ingredientsToStrings` returns for the records `parseIngredients` returns are, in
order, the elements of the array with leading and trailing whitespace removed, as many as the
array has elements. -/
theorem ingredientsToStrings_parseIngredients (A : List JSString)
    (h : ∀ s ∈ A, ∃ c ∈ s, isWhiteSpace c = false) :
    ∃ out, ingredientsToStrings (JSArg.array
        ((parseIngredients (JSArg.array (A.map JSValue.string))).map JSValue.ingredient)) =
        Except.ok out ∧
      out.length = A.length ∧ out = A.map trim := by
  have hne : ∀ s ∈ A, trim s ≠ [] := by
    intro s hs e
    obtain ⟨c, hc, hw⟩ := h s hs
    have := (trim_eq_nil_iff s).1 e c hc
    rw [hw] at this
    exact Bool.noConfusion this
  have horig : (parseIngredients (JSArg.array (A.map JSValue.string))).map
      (fun r => r.original) = A.map trim := by
    rw [parseIngredients_array_eq_filterMap, map_original_filterMap_parseIngredient]
    congr 1
    rw [List.filter_eq_self]
    intro s hs
    cases s with
    | nil => exact absurd rfl (hne [] hs)
    | cons c cs => rfl
  refine ⟨A.map trim, ?_, by simp, rfl⟩
  generalize parseIngredients (JSArg.array (A.map JSValue.string)) = rs at horig
  have hmap := mapStrings_eq_map_displayString (rs.map JSValue.ingredient)
    (fun x hx => by
      obtain ⟨r, _, rfl⟩ := List.mem_map.1 hx
      exact Or.inr ⟨r, rfl⟩)
  rw [ingredientsToStrings, hmap, ← horig, List.map_map]
  congr 1
  apply List.map_congr_left
  intro r hr
  have hro : r.original ∈ A.map trim := by
    rw [← horig]
    exact List.mem_map.2 ⟨r, hr, rfl⟩
  obtain ⟨s, hs, hst⟩ := List.mem_map.1 hro
  have hn : r.original ≠ [] := hst ▸ hne s hs
  simp [displayString, hn]

/-- Claim C28 at the array of " 2 cups flour " and "3 eggs". -/
theorem ingredientsToStrings_parseIngredients_witness :
    (∀ s ∈ [" 2 cups flour ".toList, "3 eggs".toList], ∃ c ∈ s, isWhiteSpace c = false) ∧
      ∃ out, ingredientsToStrings (JSArg.array
          ((parseIngredients (JSArg.array
            ([" 2 cups flour ".toList, "3 eggs".toList].map JSValue.string))).map
              JSValue.ingredient)) = Except.ok out ∧
        out.length = 2 ∧ out = [" 2 cups flour ".toList, "3 eggs".toList].map trim :=
  have hA : ∀ s ∈ [" 2 cups flour ".toList, "3 eggs".toList],
      ∃ c ∈ s, isWhiteSpace c = false := by decide
  ⟨hA, ingredientsToStrings_parseIngredients [" 2 cups flour ".toList, "3 eggs".toList] hA⟩

/-! ## Properties of `trim` -/

/-- What `dropWhile` leaves does not start with a character of the class. -/
theorem dropWhile_head_not (p : Char → Bool) (s : JSString) (c : Char) (t : JSString)
    (h : s.dropWhile p = c :: t) : p c = false := by
  induction s with
  | nil => exact List.noConfusion h
  | cons a s ih =>
    by_cases ha : p a = true
    · rw [List.dropWhile_cons_of_pos ha] at h
      exact ih h
    · rw [List.dropWhile_cons_of_neg ha] at h
      cases h
      exact Bool.eq_false_iff.2 ha

/-- The class characters at the front of a concatenation go away whole. -/
theorem dropWhile_append_of_all (p : Char → Bool) (l₁ l₂ : JSString)
    (h : ∀ c ∈ l₁, p c = true) : (l₁ ++ l₂).dropWhile p = l₂.dropWhile p := by
  induction l₁ with
  | nil => rfl
  | cons a l ih =>
    rw [List.cons_append, List.dropWhile_cons_of_pos (h a (List.mem_cons_self a l))]
    exact ih (fun c hc => h c (List.mem_cons_of_mem a hc))

/-- A trimmed text does not start with whitespace. -/
theorem head_trim (s : JSString) (c : Char) (t : JSString) (h : trim s = c :: t) :
    isWhiteSpace c = false := by
  unfold trim at h
  have hsuf : ((s.dropWhile isWhiteSpace).reverse.dropWhile isWhiteSpace) <:+
      (s.dropWhile isWhiteSpace).reverse := List.dropWhile_suffix _
  have hpre : ((s.dropWhile isWhiteSpace).reverse.dropWhile isWhiteSpace).reverse <+:
      s.dropWhile isWhiteSpace := by
    have := List.reverse_prefix.2 hsuf
    rwa [List.reverse_reverse] at this
  rw [h] at hpre
  obtain ⟨more, hm⟩ := hpre
  exact dropWhile_head_not isWhiteSpace s c (t ++ more) (by rw [← hm]; rfl)

/-- A trimmed text does not end with whitespace. -/
theorem getLast_trim (s init : JSString) (z : Char) (h : trim s = init ++ [z]) :
    isWhiteSpace z = false := by
  unfold trim at h
  have h' := congrArg List.reverse h
  rw [List.reverse_reverse, List.reverse_append] at h'
  exact dropWhile_head_not isWhiteSpace _ z init.reverse h'

/-- A text that starts and ends with no whitespace, followed by whitespace, trims to
itself. -/
theorem trim_append_whitespace (x0 z : Char) (tl init blanks : JSString)
    (hx : isWhiteSpace x0 = false) (hz : isWhiteSpace z = false)
    (he : x0 :: tl = init ++ [z]) (hb : ∀ c ∈ blanks, isWhiteSpace c = true) :
    trim (x0 :: tl ++ blanks) = x0 :: tl := by
  have hx' : ¬ isWhiteSpace x0 = true := by simp [hx]
  have hz' : ¬ isWhiteSpace z = true := by simp [hz]
  unfold trim
  rw [List.cons_append, List.dropWhile_cons_of_neg hx', ← List.cons_append, he,
    List.reverse_append, List.reverse_append,
    dropWhile_append_of_all isWhiteSpace blanks.reverse _
      (fun c hc => hb c (List.mem_reverse.1 hc))]
  simp [List.dropWhile_cons_of_neg hz']

/-- The trimmed form of a text that starts with no whitespace and holds a further character
that is no whitespace: the text up to that character stays, the rest is cut at its end. -/
theorem trim_shape (a0 x : Char) (A rest : JSString)
    (ha : isWhiteSpace a0 = false) (hx : isWhiteSpace x = false) :
    ∃ rest', trim (a0 :: A ++ x :: rest) = a0 :: A ++ x :: rest' ∧ ∀ c ∈ rest', c ∈ rest := by
  have ha' : ¬ isWhiteSpace a0 = true := by simp [ha]
  have hx' : ¬ isWhiteSpace x = true := by simp [hx]
  refine ⟨(rest.reverse.dropWhile isWhiteSpace).reverse, ?_, ?_⟩
  · unfold trim
    rw [List.cons_append, List.dropWhile_cons_of_neg ha', ← List.cons_append,
      List.reverse_append, List.reverse_cons x rest, List.append_assoc, List.dropWhile_append]
    by_cases hr : (rest.reverse.dropWhile isWhiteSpace).isEmpty = true
    · have hr' : rest.reverse.dropWhile isWhiteSpace = [] := by simpa using hr
      simp [hr', List.dropWhile_cons_of_neg hx']
    · simp only [hr, Bool.false_eq_true, if_false]
      simp
  · intro c hc
    exact List.mem_reverse.1 ((List.dropWhile_sublist _).subset (List.mem_reverse.1 hc))

/-! ## Properties of the matchers -/

/-- A match of `x*` cuts the input in two, the first part made of characters of the class. -/
theorem starM_mem (p : Char → Bool) (s m r : JSString) (h : (m, r) ∈ starM p s) :
    m ++ r = s ∧ ∀ c ∈ m, p c = true := by
  induction s generalizing m r with
  | nil =>
    simp only [starM, List.mem_singleton, Prod.mk.injEq] at h
    obtain ⟨rfl, rfl⟩ := h
    exact ⟨rfl, fun _ hc => absurd hc (List.not_mem_nil _)⟩
  | cons a s ih =>
    simp only [starM] at h
    by_cases ha : p a = true
    · simp only [ha, if_true, List.mem_append, List.mem_map, List.mem_singleton,
        Prod.mk.injEq] at h
      rcases h with ⟨x, hx, rfl, rfl⟩ | ⟨rfl, rfl⟩
      · obtain ⟨h1, h2⟩ := ih x.1 x.2 hx
        refine ⟨by rw [List.cons_append, h1], ?_⟩
        intro c hc
        rcases List.mem_cons.1 hc with rfl | hc
        · exact ha
        · exact h2 c hc
      · exact ⟨rfl, fun _ hc => absurd hc (List.not_mem_nil _)⟩
    · simp only [ha, Bool.false_eq_true, if_false, List.mem_singleton, Prod.mk.injEq] at h
      obtain ⟨rfl, rfl⟩ := h
      exact ⟨rfl, fun _ hc => absurd hc (List.not_mem_nil _)⟩

/-- A match of `x+` cuts the input in two, the first part not empty and made of characters of
the class. -/
theorem plusM_mem (p : Char → Bool) (s m r : JSString) (h : (m, r) ∈ plusM p s) :
    m ++ r = s ∧ m ≠ [] ∧ ∀ c ∈ m, p c = true := by
  cases s with
  | nil => exact absurd h (List.not_mem_nil _)
  | cons a s =>
    simp only [plusM] at h
    by_cases ha : p a = true
    · simp only [ha, if_true, List.mem_map, Prod.mk.injEq] at h
      obtain ⟨x, hx, rfl, rfl⟩ := h
      obtain ⟨h1, h2⟩ := starM_mem p s x.1 x.2 hx
      refine ⟨by rw [List.cons_append, h1], List.cons_ne_nil _ _, ?_⟩
      intro c hc
      rcases List.mem_cons.1 hc with rfl | hc
      · exact ha
      · exact h2 c hc
    · simp only [ha, Bool.false_eq_true, if_false] at h
      exact absurd h (List.not_mem_nil _)

/-- A match of one character cuts the input in two. -/
theorem charM_mem (p : Char → Bool) (s m r : JSString) (h : (m, r) ∈ charM p s) :
    m ++ r = s := by
  cases s with
  | nil => exact absurd h (List.not_mem_nil _)
  | cons a s =>
    simp only [charM] at h
    by_cases ha : p a = true
    · simp only [ha, if_true, List.mem_singleton, Prod.mk.injEq] at h
      obtain ⟨rfl, rfl⟩ := h
      rfl
    · simp only [ha, Bool.false_eq_true, if_false] at h
      exact absurd h (List.not_mem_nil _)

/-- A match of a concatenation is a match of the first part followed by one of the second. -/
theorem seqM_mem (a b : Matcher) (s m r : JSString) (h : (m, r) ∈ seqM a b s) :
    ∃ m1 r1 m2, (m1, r1) ∈ a s ∧ (m2, r) ∈ b r1 ∧ m = m1 ++ m2 := by
  simp only [seqM, List.mem_flatMap, List.mem_map, Prod.mk.injEq] at h
  obtain ⟨x, hx, y, hy, rfl, rfl⟩ := h
  exact ⟨x.1, x.2, y.1, hx, hy, rfl⟩

/-- Matchers that cut the input in two do so in sequence. -/
theorem seqM_sound (a b : Matcher)
    (ha : ∀ s m r, (m, r) ∈ a s → m ++ r = s) (hb : ∀ s m r, (m, r) ∈ b s → m ++ r = s)
    (s m r : JSString) (h : (m, r) ∈ seqM a b s) : m ++ r = s := by
  obtain ⟨m1, r1, m2, h1, h2, rfl⟩ := seqM_mem a b s m r h
  rw [List.append_assoc, hb r1 m2 r h2, ha s m1 r1 h1]

/-- A match of an optional part is a match of the part or the empty match. -/
theorem optM_mem (a : Matcher) (s m r : JSString) (h : (m, r) ∈ optM a s) :
    (m, r) ∈ a s ∨ (m = [] ∧ r = s) := by
  simp only [optM, List.mem_append, List.mem_filter, List.mem_singleton, Prod.mk.injEq] at h
  rcases h with ⟨h, _⟩ | h
  · exact Or.inl h
  · exact Or.inr h

/-- An optional part of a matcher that cuts the input in two does so too. -/
theorem optM_sound (a : Matcher) (ha : ∀ s m r, (m, r) ∈ a s → m ++ r = s)
    (s m r : JSString) (h : (m, r) ∈ optM a s) : m ++ r = s := by
  rcases optM_mem a s m r h with h | ⟨rfl, rfl⟩
  · exact ha s m r h
  · rfl

/-- The sub-pattern for a number cuts the input in two. -/
theorem numberM_sound (s m r : JSString) (h : (m, r) ∈ numberM s) : m ++ r = s :=
  seqM_sound _ _ (fun s m r h => (plusM_mem _ s m r h).1)
    (optM_sound _ (seqM_sound _ _ (charM_mem _) (fun s m r h => (plusM_mem _ s m r h).1)))
    s m r h

/-- The quantity group cuts the input in two. -/
theorem quantityM_sound (s m r : JSString) (h : (m, r) ∈ quantityM s) : m ++ r = s :=
  seqM_sound _ _ numberM_sound
    (seqM_sound _ _
      (optM_sound _ (seqM_sound _ _ (fun s m r h => (plusM_mem _ s m r h).1) numberM_sound))
      (fun s m r h => (starM_mem _ s m r h).1))
    s m r h

/-- What is left after an optional group is an end of the input. -/
theorem optGroupM_suffix (a : Matcher) (ha : ∀ s m r, (m, r) ∈ a s → m ++ r = s)
    (s : JSString) (g : Option JSString) (r : JSString) (h : (g, r) ∈ optGroupM a s) :
    ∃ pre, s = pre ++ r := by
  simp only [optGroupM, List.mem_append, List.mem_map, List.mem_filter, List.mem_singleton,
    Prod.mk.injEq] at h
  rcases h with ⟨x, ⟨hx, _⟩, _, rfl⟩ | ⟨_, rfl⟩
  · exact ⟨x.1, (ha s x.1 x.2 hx).symm⟩
  · exact ⟨[], rfl⟩

/-- The tail of the pattern takes the whole rest, which is then not empty and holds no line
terminator. -/
theorem restM_mem (s n : JSString) (h : n ∈ restM s) :
    n = s ∧ s ≠ [] ∧ ∀ c ∈ s, isLineTerminator c = false := by
  simp only [restM, List.mem_map, List.mem_filter] at h
  obtain ⟨x, ⟨hx, hr⟩, rfl⟩ := h
  obtain ⟨h1, h2, h3⟩ := plusM_mem _ s x.1 x.2 hx
  have hr' : x.2 = [] := by simpa using hr
  rw [hr', List.append_nil] at h1
  subst h1
  exact ⟨rfl, h2, fun c hc => by simpa using h3 c hc⟩

/-- The tail of the pattern on a text that is not empty and holds no line terminator. -/
theorem restM_eq (s : JSString) (hs : s ≠ []) (hl : ∀ c ∈ s, isLineTerminator c = false) :
    restM s = [s] := by
  have key : ∀ t : JSString, (∀ c ∈ t, isLineTerminator c = false) →
      (starM (fun c => !isLineTerminator c) t).filter (fun r => r.2.isEmpty) = [(t, [])] := by
    intro t
    induction t with
    | nil => intro _; rfl
    | cons a t ih =>
      intro ht
      have ha : (!isLineTerminator a) = true := by simp [ht a (List.mem_cons_self a t)]
      have iht := ih (fun c hc => ht c (List.mem_cons_of_mem a hc))
      simp only [starM, ha, if_true, List.filter_append, List.filter_map, Function.comp_def,
        iht, List.map_cons, List.map_nil, List.filter_cons, List.isEmpty_cons,
        Bool.false_eq_true, if_false, List.filter_nil, List.append_nil]
  obtain ⟨a, t, rfl⟩ := List.exists_cons_of_ne_nil hs
  have ha : (!isLineTerminator a) = true := by simp [hl a (List.mem_cons_self a t)]
  have ht := key t (fun c hc => hl c (List.mem_cons_of_mem a hc))
  simp only [restM, plusM, ha, if_true, List.filter_map, Function.comp_def, ht, List.map_cons,
    List.map_nil]

/-- The groups of a match of the ingredient pattern: the remainder is a non-empty end of the
text without line terminator. -/
theorem matchPattern_some (t : JSString) (q u : Option JSString) (n : JSString)
    (h : matchPattern t = some (q, u, n)) :
    n ≠ [] ∧ (∃ pre, t = pre ++ n) ∧ ∀ c ∈ n, isLineTerminator c = false := by
  unfold matchPattern at h
  have hmem := List.mem_of_mem_head? h
  simp only [List.mem_flatMap, List.mem_map, Prod.mk.injEq] at hmem
  obtain ⟨x, hx, y, hy, n', hn, _, _, rfl⟩ := hmem
  obtain ⟨hn1, hn2, hn3⟩ := restM_mem y.2 n' hn
  subst hn1
  obtain ⟨pre1, h1⟩ := optGroupM_suffix quantityM quantityM_sound t x.1 x.2 hx
  obtain ⟨pre2, h2⟩ := optGroupM_suffix (starM isUnitChar)
    (fun s m r h => (starM_mem _ s m r h).1) x.2 y.1 y.2 hy
  exact ⟨hn2, ⟨pre1 ++ pre2, by rw [h1, h2, List.append_assoc]⟩, hn3⟩

/-! ## The name of a parsed line -/

/-- The name `parseNameAndNotes` returns for a remainder with a character that is not
whitespace is not empty. -/
theorem parseNameAndNotes_name_ne_nil (n : JSString) (c0 : Char) (t0 : JSString)
    (ht : trim n = c0 :: t0) : (parseNameAndNotes n).name ≠ [] := by
  have hc0 : isWhiteSpace c0 = false := head_trim n c0 t0 ht
  cases n with
  | nil => exact List.noConfusion ht
  | cons a as =>
    unfold parseNameAndNotes
    rw [if_neg (by simp)]
    dsimp only
    rw [ht]
    rcases findSeparator_spec (c0 :: t0) separators with
      ⟨_, _, _, i, _, _, _, hpos, hfind⟩ | ⟨_, hfind⟩
    · rw [hfind]
      dsimp only
      obtain ⟨k, rfl⟩ : ∃ k, i = k + 1 := ⟨i - 1, by omega⟩
      rw [List.take_succ_cons]
      intro e
      have := (trim_eq_nil_iff _).1 e c0 (List.mem_cons_self _ _)
      rw [hc0] at this
      exact Bool.noConfusion this
    · rw [hfind]
      exact List.cons_ne_nil _ _

/-- Claim C25: for every string with a character that is not whitespace `parseIngredient`
returns a record, and the name of the record is not empty, whether the pattern matches or not
and whether a separator of the notes is found or not. -/
theorem parseIngredient_name_nonempty (s : JSString)
    (h : ∃ c ∈ s, isWhiteSpace c = false) :
    ∃ r, parseIngredient (JSValue.string s) = some r ∧ r.name ≠ [] := by
  obtain ⟨w, hw, hww⟩ := h
  have hT : trim s ≠ [] := by
    intro e
    have := (trim_eq_nil_iff s).1 e w hw
    rw [hww] at this
    exact Bool.noConfusion this
  cases s with
  | nil => exact absurd hw (List.not_mem_nil _)
  | cons c cs =>
    rcases parseIngredient_cases c cs with ⟨_, hr⟩ | ⟨q, u, n, hm, hr⟩
    · exact ⟨_, hr, hT⟩
    · refine ⟨_, hr, ?_⟩
      obtain ⟨hn, ⟨pre, hpre⟩, _⟩ := matchPattern_some _ q u n hm
      rcases List.eq_nil_or_concat (trim (c :: cs)) with e | ⟨init, z, hz⟩
      · exact absurd e hT
      · rw [List.concat_eq_append] at hz
        have hzw : isWhiteSpace z = false := getLast_trim (c :: cs) init z hz
        rcases List.eq_nil_or_concat n with e | ⟨n0, y, hy⟩
        · exact absurd e hn
        · rw [List.concat_eq_append] at hy
          have hlast : (pre ++ n).getLast? = (init ++ [z]).getLast? := by rw [← hpre, hz]
          rw [hy, ← List.append_assoc, List.getLast?_concat, List.getLast?_concat] at hlast
          have hyz : y = z := Option.some.inj hlast
          have hne : trim n ≠ [] := by
            intro e
            have := (trim_eq_nil_iff n).1 e z (by rw [hy, hyz]; simp)
            rw [hzw] at this
            exact Bool.noConfusion this
          obtain ⟨c0, t0, ht0⟩ := List.exists_cons_of_ne_nil hne
          exact parseNameAndNotes_name_ne_nil n c0 t0 ht0

/-- Claim C25 at the line "2 cups flour, sifted" and at a line the pattern does not match. -/
theorem parseIngredient_name_nonempty_witness :
    (∃ c ∈ "2 cups flour, sifted".toList, isWhiteSpace c = false) ∧
      (∃ r, parseIngredient (JSValue.string "2 cups flour, sifted".toList) = some r ∧
        r.name ≠ []) ∧
      (parseIngredient (JSValue.string "flour,\nsugar".toList)).map (fun r => r.name) =
        some "flour,\nsugar".toList :=
  have hc : ∃ c ∈ "2 cups flour, sifted".toList, isWhiteSpace c = false := by decide
  ⟨hc, parseIngredient_name_nonempty "2 cups flour, sifted".toList hc, by decide⟩

/-! ## The first way through the pattern -/

/-- No `x+` where the input does not start with a character of the class. -/
theorem plusM_eq_nil (p : Char → Bool) (s : JSString)
    (h : ∀ c t, s = c :: t → p c = false) : plusM p s = [] := by
  cases s with
  | nil => rfl
  | cons a s =>
    simp only [plusM, h a s rfl, Bool.false_eq_true, if_false]

/-- No concatenation where the first part does not match. -/
theorem seqM_eq_nil (a b : Matcher) (s : JSString) (h : a s = []) : seqM a b s = [] := by
  simp only [seqM, h, List.flatMap_nil]

/-- The first match of `x*` is the longest run of characters of the class. -/
theorem starM_run (p : Char → Bool) (run rest : JSString)
    (hrun : ∀ c ∈ run, p c = true) (hrest : ∀ c t, rest = c :: t → p c = false) :
    ∃ tl, starM p (run ++ rest) = (run, rest) :: tl := by
  induction run with
  | nil =>
    cases rest with
    | nil => exact ⟨[], rfl⟩
    | cons a t =>
      refine ⟨[], ?_⟩
      simp only [List.nil_append, starM, hrest a t rfl, Bool.false_eq_true, if_false]
  | cons a run ih =>
    obtain ⟨tl, htl⟩ := ih (fun c hc => hrun c (List.mem_cons_of_mem a hc))
    refine ⟨tl.map (fun r => (a :: r.1, r.2)) ++ [([], a :: (run ++ rest))], ?_⟩
    rw [List.cons_append]
    simp only [starM, hrun a (List.mem_cons_self a run), if_true, htl, List.map_cons,
      List.cons_append]

/-- The first match of `x+` is the longest run of characters of the class. -/
theorem plusM_run (p : Char → Bool) (run rest : JSString) (hne : run ≠ [])
    (hrun : ∀ c ∈ run, p c = true) (hrest : ∀ c t, rest = c :: t → p c = false) :
    ∃ tl, plusM p (run ++ rest) = (run, rest) :: tl := by
  obtain ⟨a, run', rfl⟩ := List.exists_cons_of_ne_nil hne
  obtain ⟨tl, htl⟩ := starM_run p run' rest
    (fun c hc => hrun c (List.mem_cons_of_mem a hc)) hrest
  refine ⟨tl.map (fun r => (a :: r.1, r.2)), ?_⟩
  rw [List.cons_append]
  simp only [plusM, hrun a (List.mem_cons_self a run'), if_true, htl, List.map_cons]

/-- The first match of a concatenation joins the first matches of its parts. -/
theorem seqM_head (a b : Matcher) (s : JSString) (x y : JSString × JSString)
    (xs ys : List (JSString × JSString)) (ha : a s = x :: xs) (hb : b x.2 = y :: ys) :
    ∃ tl, seqM a b s = (x.1 ++ y.1, y.2) :: tl := by
  refine ⟨ys.map (fun t => (x.1 ++ t.1, t.2)) ++
    xs.flatMap (fun r => (b r.2).map (fun t => (r.1 ++ t.1, t.2))), ?_⟩
  simp only [seqM, ha, List.flatMap_cons, hb, List.map_cons, List.cons_append]

/-- The first match of an optional part is the first match of the part, when that is not
empty. -/
theorem optM_head (a : Matcher) (s : JSString) (x : JSString × JSString)
    (xs : List (JSString × JSString)) (ha : a s = x :: xs) (hx : x.1 ≠ []) :
    ∃ tl, optM a s = x :: tl := by
  refine ⟨xs.filter (fun r => !r.1.isEmpty) ++ [([], s)], ?_⟩
  have hx' : (!x.1.isEmpty) = true := by
    cases h : x.1 with
    | nil => exact absurd h hx
    | cons _ _ => rfl
  simp only [optM, ha, List.filter_cons, hx', if_true, List.cons_append]

/-- The only match of an optional part that does not match is the empty one. -/
theorem optM_eq_of_nil (a : Matcher) (s : JSString) (ha : a s = []) :
    optM a s = [([], s)] := by
  simp only [optM, ha, List.filter_nil, List.nil_append]

/-- On a text made of characters of the class `x*` tries the whole text first, then the text
without its last character. -/
theorem starM_all_snoc (p : Char → Bool) (init : JSString) (z : Char)
    (hinit : ∀ c ∈ init, p c = true) (hz : p z = true) :
    ∃ tl, starM p (init ++ [z]) = (init ++ [z], []) :: (init, [z]) :: tl := by
  induction init with
  | nil =>
    refine ⟨[], ?_⟩
    simp only [List.nil_append, starM, hz, if_true, List.map_cons, List.map_nil,
      List.cons_append]
  | cons a init ih =>
    obtain ⟨tl, htl⟩ := ih (fun c hc => hinit c (List.mem_cons_of_mem a hc))
    refine ⟨tl.map (fun r => (a :: r.1, r.2)) ++ [([], a :: (init ++ [z]))], ?_⟩
    rw [List.cons_append]
    simp only [starM, hinit a (List.mem_cons_self a init), if_true, htl, List.map_cons,
      List.cons_append]

/-- The match of the ingredient pattern on a text of at least two characters of the unit
class that starts with no digit: the unit group takes all but the last character. -/
theorem matchPattern_unit_chars (init : JSString) (z : Char) (hne : init ≠ [])
    (hinit : ∀ c ∈ init, isUnitChar c = true) (hz : isUnitChar z = true)
    (hzl : isLineTerminator z = false) (hd : ∀ c t, init = c :: t → isDigit c = false) :
    matchPattern (init ++ [z]) = some (none, some init, [z]) := by
  have hq : quantityM (init ++ [z]) = [] := by
    apply seqM_eq_nil
    apply seqM_eq_nil
    apply plusM_eq_nil
    intro c t hct
    obtain ⟨a, as, rfl⟩ := List.exists_cons_of_ne_nil hne
    rw [List.cons_append] at hct
    cases hct
    exact hd c as rfl
  obtain ⟨tl, htl⟩ := starM_all_snoc isUnitChar init z hinit hz
  have hr : restM [z] = [[z]] :=
    restM_eq [z] (List.cons_ne_nil _ _) (fun c hc => by
      rw [List.mem_singleton.1 hc]
      exact hzl)
  have hi : (!init.isEmpty) = true := by
    cases h : init with
    | nil => exact absurd h hne
    | cons _ _ => rfl
  have hiz : (!(init ++ [z]).isEmpty) = true := by
    cases h : init ++ [z] with
    | nil => simp at h
    | cons _ _ => rfl
  have hr0 : restM [] = [] := rfl
  simp only [matchPattern, optGroupM, hq, List.filter_nil, List.map_nil, List.nil_append,
    List.flatMap_cons, List.flatMap_nil, List.append_nil, htl, List.filter_cons, hi, hiz,
    if_true, List.map_cons, List.cons_append, hr0, hr, List.head?_cons]

/-! ## Lines of letters and blanks -/

/-- A letter or a blank is a character of the unit class and no digit. -/
theorem unitChar_of_letter_or_blank (c : Char) (h : isAsciiLetter c = true ∨ c = ' ') :
    isUnitChar c = true ∧ isDigit c = false := by
  rcases h with h | rfl
  · refine ⟨by simp [isUnitChar, h], ?_⟩
    simp only [isAsciiLetter, Bool.or_eq_true, Bool.and_eq_true, decide_eq_true_eq] at h
    simp only [isDigit, Bool.and_eq_false_iff, decide_eq_false_iff_not]
    omega
  · exact ⟨by decide, by decide⟩

/-- A letter is no whitespace and no line terminator. -/
theorem not_whiteSpace_of_letter (c : Char) (h : isAsciiLetter c = true) :
    isWhiteSpace c = false ∧ isLineTerminator c = false := by
  simp only [isAsciiLetter, Bool.or_eq_true, Bool.and_eq_true, decide_eq_true_eq] at h
  constructor
  · simp only [isWhiteSpace, Bool.or_eq_false_iff, Bool.and_eq_false_iff,
      decide_eq_false_iff_not, beq_eq_false_iff_ne, ne_eq]
    omega
  · simp only [isLineTerminator, Bool.or_eq_false_iff, beq_eq_false_iff_ne, ne_eq]
    omega

/-- No separator of the notes is found above index 0 in a text of one character. -/
theorem findSeparator_singleton (z : Char) : findSeparator [z] separators = none := by
  rcases findSeparator_spec [z] separators with
    ⟨pre, sep, post, i, hs, _, hidx, hpos, _⟩ | ⟨_, hfind⟩
  · exfalso
    obtain ⟨_, h2, _⟩ := indexOfFrom_eq_some sep (toLowerCase [z]) 0 i hidx
    obtain ⟨k, rfl⟩ : ∃ k, i = k + 1 := ⟨i - 1, by omega⟩
    have hnil : sep = [] := by
      simpa [toLowerCase] using h2
    have hmem : sep ∈ separators := by
      rw [hs]
      simp
    rw [hnil] at hmem
    exact absurd hmem (by decide)
  · exact hfind

/-- The name and notes of a remainder of one character that is no whitespace. -/
theorem parseNameAndNotes_singleton (z : Char) (hz : isWhiteSpace z = false) :
    parseNameAndNotes [z] = { name := [z], notes := [] } := by
  have hz' : ¬ isWhiteSpace z = true := by simp [hz]
  have ht : trim [z] = [z] := by
    simp [trim, List.dropWhile_cons_of_neg hz']
  unfold parseNameAndNotes
  rw [if_neg (by simp)]
  dsimp only
  rw [ht, findSeparator_singleton z]
  rfl

/-- Claim C27: for every line that, once trimmed, has at least two characters, all of them
ASCII letters or blanks, `parseIngredient` returns a record with an empty quantity, empty
notes and a name that is the last character of the trimmed line; all the characters before
the last were taken by the unit segment, which `cleanUnit` turns into the unit. -/
theorem parseIngredient_letters (s init : JSString) (z : Char)
    (ht : trim s = init ++ [z]) (hinit : init ≠ [])
    (hall : ∀ c ∈ trim s, isAsciiLetter c = true ∨ c = ' ') :
    matchPattern (trim s) = some (none, some init, [z]) ∧
      parseIngredient (JSValue.string s) =
        some { quantity := [], unit := cleanUnit (some init), name := [z], notes := [],
               original := trim s } := by
  have hzw : isWhiteSpace z = false := getLast_trim s init z ht
  have hzmem : z ∈ trim s := by rw [ht]; simp
  have hzl : isAsciiLetter z = true := by
    rcases hall z hzmem with h | h
    · exact h
    · rw [h] at hzw
      exact absurd hzw (by decide)
  have hm : matchPattern (trim s) = some (none, some init, [z]) := by
    rw [ht]
    apply matchPattern_unit_chars init z hinit
    · intro c hc
      exact (unitChar_of_letter_or_blank c (hall c (by rw [ht]; simp [hc]))).1
    · exact (unitChar_of_letter_or_blank z (Or.inl hzl)).1
    · exact (not_whiteSpace_of_letter z hzl).2
    · intro c t hct
      exact (unitChar_of_letter_or_blank c (hall c (by rw [ht, hct]; simp))).2
  refine ⟨hm, ?_⟩
  cases s with
  | nil =>
    have : trim [] ≠ init ++ [z] := by simp [trim]
    exact absurd ht this
  | cons c cs =>
    rcases parseIngredient_cases c cs with ⟨hnone, _⟩ | ⟨q, u, n, hsome, hr⟩
    · rw [hm] at hnone
      exact Option.noConfusion hnone
    · rw [hm] at hsome
      cases hsome
      rw [hr, parseNameAndNotes_singleton z hzw]
      rfl

/-- Claim C27 at the lines "salt" and "olive oil". -/
theorem parseIngredient_letters_witness :
    trim "olive oil".toList = "olive oi".toList ++ ['l'] ∧
      "olive oi".toList ≠ [] ∧
      (∀ c ∈ trim "olive oil".toList, isAsciiLetter c = true ∨ c = ' ') ∧
      (matchPattern (trim "olive oil".toList) =
          some (none, some "olive oi".toList, ['l']) ∧
        parseIngredient (JSValue.string "olive oil".toList) =
          some { quantity := [], unit := cleanUnit (some "olive oi".toList),
                 name := ['l'], notes := [],
                 original := trim "olive oil".toList }) ∧
      parseIngredient (JSValue.string "salt".toList) =
        some { quantity := [], unit := UnitValue.text "sal".toList, name := "t".toList,
               notes := [], original := "salt".toList } :=
  have h1 : trim "olive oil".toList = "olive oi".toList ++ ['l'] := by
    decide
  have h2 : "olive oi".toList ≠ [] := by decide
  have h3 : ∀ c ∈ trim "olive oil".toList, isAsciiLetter c = true ∨ c = ' ' := by decide
  ⟨h1, h2, h3, parseIngredient_letters "olive oil".toList "olive oi".toList _ h1 h2 h3,
    by decide⟩

/-! ## The quantity group on lines that start with a number -/

/-- The first match of the number sub-pattern on digits that no digit and no slash follows. -/
theorem numberM_head_plain (d rest : JSString) (hd : d ≠ [])
    (hdd : ∀ c ∈ d, isDigit c = true)
    (hr : ∀ c t, rest = c :: t → isDigit c = false ∧ (c.toNat == 0x2F) = false) :
    ∃ tl, numberM (d ++ rest) = (d, rest) :: tl := by
  obtain ⟨tl1, h1⟩ := plusM_run isDigit d rest hd hdd (fun c t h => (hr c t h).1)
  have h2 : optM (seqM (charM (fun c => c.toNat == 0x2F)) (plusM isDigit)) rest =
      [([], rest)] := by
    apply optM_eq_of_nil
    apply seqM_eq_nil
    cases rest with
    | nil => rfl
    | cons c t => simp only [charM, (hr c t rfl).2, Bool.false_eq_true, if_false]
  obtain ⟨tl, h⟩ := seqM_head _ _ (d ++ rest) (d, rest) ([], rest) tl1 [] h1 h2
  exact ⟨tl, by simpa using h⟩

/-- The first match of the number sub-pattern on digits, a slash and digits that no digit
follows. -/
theorem numberM_head_slash (d1 d2 rest : JSString) (h1 : d1 ≠ [])
    (h1d : ∀ c ∈ d1, isDigit c = true) (h2 : d2 ≠ []) (h2d : ∀ c ∈ d2, isDigit c = true)
    (hr : ∀ c t, rest = c :: t → isDigit c = false) :
    ∃ tl, numberM (d1 ++ '/' :: (d2 ++ rest)) = (d1 ++ '/' :: d2, rest) :: tl := by
  obtain ⟨tl1, hp1⟩ := plusM_run isDigit d1 ('/' :: (d2 ++ rest)) h1 h1d (fun c t h => by
    cases h
    decide)
  obtain ⟨tl2, hp2⟩ := plusM_run isDigit d2 rest h2 h2d hr
  have hc : charM (fun c => c.toNat == 0x2F) ('/' :: (d2 ++ rest)) = [(['/'], d2 ++ rest)] := by
    simp [charM]
  obtain ⟨tl3, hs⟩ := seqM_head (charM (fun c => c.toNat == 0x2F)) (plusM isDigit)
    ('/' :: (d2 ++ rest)) (['/'], d2 ++ rest) (d2, rest) [] tl2 hc hp2
  obtain ⟨tl4, ho⟩ := optM_head _ ('/' :: (d2 ++ rest)) _ tl3 hs (by simp)
  obtain ⟨tl, h⟩ := seqM_head _ _ (d1 ++ '/' :: (d2 ++ rest)) (d1, '/' :: (d2 ++ rest))
    (['/'] ++ d2, rest) tl1 tl4 hp1 ho
  exact ⟨tl, by simpa using h⟩

/-- After blanks that no digit follows there is no second number of a mixed number. -/
theorem mixedPart_eq_nil (blanks tail : JSString)
    (hb : ∀ c ∈ blanks, isWhiteSpace c = true)
    (ht : ∀ c t, tail = c :: t → isWhiteSpace c = false ∧ isDigit c = false) :
    seqM (plusM isWhiteSpace) numberM (blanks ++ tail) = [] := by
  apply List.eq_nil_iff_forall_not_mem.2
  rintro ⟨m, r⟩ hmem
  obtain ⟨m1, r1, m2, hm1, hm2, _⟩ := seqM_mem _ _ _ m r hmem
  obtain ⟨hcut, _, hws⟩ := plusM_mem _ _ m1 r1 hm1
  obtain ⟨d, r', _, hd, _, _⟩ := seqM_mem _ _ _ m2 r hm2
  obtain ⟨hcut', hdne, hdd⟩ := plusM_mem _ _ d r' hd
  obtain ⟨c, dt, rfl⟩ := List.exists_cons_of_ne_nil hdne
  have hc : isDigit c = true := hdd c (List.mem_cons_self c dt)
  have hcw : ¬ isWhiteSpace c = true := by
    intro hw
    simp only [isDigit, Bool.and_eq_true, decide_eq_true_eq] at hc
    simp only [isWhiteSpace, Bool.or_eq_true, Bool.and_eq_true, decide_eq_true_eq,
      beq_iff_eq] at hw
    omega
  have hdrop : (m1 ++ r1).dropWhile isWhiteSpace = (blanks ++ tail).dropWhile isWhiteSpace := by
    rw [hcut]
  rw [dropWhile_append_of_all _ _ _ hws, dropWhile_append_of_all _ _ _ hb, ← hcut',
    List.cons_append, List.dropWhile_cons_of_neg hcw] at hdrop
  cases tail with
  | nil => simp at hdrop
  | cons a t =>
    have ha : ¬ isWhiteSpace a = true := by simp [(ht a t rfl).1]
    rw [List.dropWhile_cons_of_neg ha] at hdrop
    have hca : c = a := (List.cons.inj hdrop).1
    have hna := (ht a t rfl).2
    rw [← hca, hc] at hna
    exact Bool.noConfusion hna

/-- The first match of the quantity group on a number followed by blanks: the number with the
blanks, when what follows the blanks starts with no blank and no digit. -/
theorem quantityM_head_single (s N blanks tail : JSString)
    (tl0 : List (JSString × JSString)) (hN : numberM s = (N, blanks ++ tail) :: tl0)
    (hb : ∀ c ∈ blanks, isWhiteSpace c = true)
    (ht : ∀ c t, tail = c :: t → isWhiteSpace c = false ∧ isDigit c = false) :
    ∃ tl, quantityM s = (N ++ blanks, tail) :: tl := by
  have hopt := optM_eq_of_nil _ _ (mixedPart_eq_nil blanks tail hb ht)
  obtain ⟨tl1, hstar⟩ := starM_run isWhiteSpace blanks tail hb (fun c t h => (ht c t h).1)
  obtain ⟨tl2, hseq⟩ := seqM_head (optM (seqM (plusM isWhiteSpace) numberM))
    (starM isWhiteSpace) (blanks ++ tail) ([], blanks ++ tail) (blanks, tail) [] tl1 hopt hstar
  obtain ⟨tl, h⟩ := seqM_head numberM _ s (N, blanks ++ tail) _ tl0 tl2 hN hseq
  exact ⟨tl, by simpa [quantityM] using h⟩

/-- The first match of the quantity group on two numbers with blanks between them and blanks
after them: both numbers with the blanks. -/
theorem quantityM_head_mixed (da db blanks1 blanks2 tail : JSString)
    (ha : da ≠ []) (had : ∀ c ∈ da, isDigit c = true)
    (hb : db ≠ []) (hbd : ∀ c ∈ db, isDigit c = true)
    (h1 : blanks1 ≠ []) (h1w : ∀ c ∈ blanks1, isWhiteSpace c = true)
    (h2w : ∀ c ∈ blanks2, isWhiteSpace c = true)
    (ht : ∀ c t, tail = c :: t → isWhiteSpace c = false)
    (hnext : ∀ c t, blanks2 ++ tail = c :: t → isDigit c = false ∧ (c.toNat == 0x2F) = false) :
    ∃ tl, quantityM (da ++ (blanks1 ++ (db ++ (blanks2 ++ tail)))) =
      (da ++ (blanks1 ++ db ++ blanks2), tail) :: tl := by
  have hwd : ∀ c, isWhiteSpace c = true → isDigit c = false ∧ (c.toNat == 0x2F) = false := by
    intro c hw
    simp only [isWhiteSpace, Bool.or_eq_true, Bool.and_eq_true, decide_eq_true_eq,
      beq_iff_eq] at hw
    simp only [isDigit, Bool.and_eq_false_iff, decide_eq_false_iff_not, beq_eq_false_iff_ne,
      ne_eq]
    omega
  have hdw : ∀ c, isDigit c = true → isWhiteSpace c = false := by
    intro c hd
    simp only [isDigit, Bool.and_eq_true, decide_eq_true_eq] at hd
    simp only [isWhiteSpace, Bool.or_eq_false_iff, Bool.and_eq_false_iff,
      decide_eq_false_iff_not, beq_eq_false_iff_ne, ne_eq]
    omega
  obtain ⟨w0, wt, rfl⟩ := List.exists_cons_of_ne_nil h1
  obtain ⟨b0, bt, rfl⟩ := List.exists_cons_of_ne_nil hb
  obtain ⟨tl1, hn1⟩ := numberM_head_plain da (w0 :: wt ++ (b0 :: bt ++ (blanks2 ++ tail))) ha
    had (fun c t h => by
      rw [← (List.cons.inj h).1]
      exact hwd w0 (h1w w0 (List.mem_cons_self _ _)))
  obtain ⟨tl2, hw1⟩ := plusM_run isWhiteSpace (w0 :: wt) (b0 :: bt ++ (blanks2 ++ tail))
    (List.cons_ne_nil _ _) h1w (fun c t h => by
      rw [← (List.cons.inj h).1]
      exact hdw b0 (hbd b0 (List.mem_cons_self _ _)))
  obtain ⟨tl3, hn2⟩ := numberM_head_plain (b0 :: bt) (blanks2 ++ tail) (List.cons_ne_nil _ _)
    hbd hnext
  obtain ⟨tl4, hs1⟩ := seqM_head (plusM isWhiteSpace) numberM _ _ _ tl2 tl3 hw1 hn2
  obtain ⟨tl5, ho⟩ := optM_head _ _ _ tl4 hs1 (by simp)
  obtain ⟨tl6, hst⟩ := starM_run isWhiteSpace blanks2 tail h2w ht
  obtain ⟨tl7, hs2⟩ := seqM_head (optM (seqM (plusM isWhiteSpace) numberM))
    (starM isWhiteSpace) _ _ _ tl5 tl6 ho hst
  obtain ⟨tl, h⟩ := seqM_head numberM _ _ _ _ tl1 tl7 hn1 hs2
  exact ⟨tl, by simpa [quantityM] using h⟩

/-- When the first way through the quantity group leaves a rest that is not empty and holds no
line terminator, the pattern matches with that first way as its quantity. -/
theorem matchPattern_of_quantity_head (T q tail : JSString) (tl : List (JSString × JSString))
    (hq : quantityM T = (q, tail) :: tl) (hqne : q ≠ []) (htail : tail ≠ [])
    (hl : ∀ c ∈ tail, isLineTerminator c = false) :
    ∃ u n, matchPattern T = some (some q, u, n) := by
  have hq' : (!q.isEmpty) = true := by
    cases h : q with
    | nil => exact absurd h hqne
    | cons _ _ => rfl
  have hlast : (none, tail) ∈ optGroupM (starM isUnitChar) tail := by
    simp [optGroupM]
  have hmem : (some q, (none : Option JSString), tail) ∈
      (optGroupM (starM isUnitChar) tail).flatMap
        (fun u => (restM u.2).map (fun n => (some q, u.1, n))) := by
    rw [List.mem_flatMap]
    exact ⟨(none, tail), hlast, by rw [restM_eq tail htail hl]; simp⟩
  cases hf : (optGroupM (starM isUnitChar) tail).flatMap
      (fun u => (restM u.2).map (fun n => (some q, u.1, n))) with
  | nil =>
    rw [hf] at hmem
    exact absurd hmem (List.not_mem_nil _)
  | cons y ys =>
    have hy : y ∈ (optGroupM (starM isUnitChar) tail).flatMap
        (fun u => (restM u.2).map (fun n => (some q, u.1, n))) := by
      rw [hf]
      exact List.mem_cons_self _ _
    simp only [List.mem_flatMap, List.mem_map] at hy
    obtain ⟨u, _, n, _, rfl⟩ := hy
    refine ⟨u.1, n, ?_⟩
    simp only [matchPattern, optGroupM, hq, List.filter_cons, hq', if_true, List.map_cons,
      List.cons_append, List.flatMap_cons]
    have hf' : (List.map (fun r : JSString × JSString => (some r.1, r.2))
          (List.filter (fun r : JSString × JSString => !r.1.isEmpty)
            (starM isUnitChar tail)) ++ [(none, tail)]).flatMap
        (fun u => (restM u.2).map (fun n => (some q, u.1, n))) = (some q, u.1, n) :: ys := hf
    rw [hf']
    rfl

/-! ## The quantity of lines that start with a number -/

/-- The record of a line the pattern matches. -/
theorem parseIngredient_of_match (s : JSString) (hs : s ≠ []) (q u : Option JSString)
    (n : JSString) (hm : matchPattern (trim s) = some (q, u, n)) :
    parseIngredient (JSValue.string s) =
      some { quantity := cleanQuantity q, unit := cleanUnit u,
             name := (parseNameAndNotes n).name, notes := (parseNameAndNotes n).notes,
             original := trim s } := by
  obtain ⟨c, cs, rfl⟩ := List.exists_cons_of_ne_nil hs
  rcases parseIngredient_cases c cs with ⟨hnone, _⟩ | ⟨q', u', n', hsome, hr⟩
  · rw [hm] at hnone
    exact Option.noConfusion hnone
  · rw [hm] at hsome
    cases hsome
    exact hr

/-- The replacement of a glyph changes nothing in a text without the glyph. -/
theorem replaceAllChar_of_not_mem (fraction : Char) (decimal s : JSString)
    (h : fraction ∉ s) : replaceAllChar fraction decimal s = s := by
  induction s with
  | nil => rfl
  | cons a s ih =>
    have ha : ¬ a = fraction := fun e => h (e ▸ List.mem_cons_self a s)
    have hs : fraction ∉ s := fun hm => h (List.mem_cons_of_mem a hm)
    have ih' := ih hs
    unfold replaceAllChar at ih' ⊢
    simp only [List.flatMap_cons, ha, if_false, ih', List.singleton_append]

/-- The replacements of a table change nothing in a text without the glyphs of the table. -/
theorem foldl_replaceAllChar_eq_self (table : List (Char × JSString)) (s : JSString)
    (h : ∀ e ∈ table, e.1 ∉ s) :
    table.foldl (fun r e => replaceAllChar e.1 e.2 r) s = s := by
  induction table with
  | nil => rfl
  | cons e t ih =>
    rw [List.foldl_cons, replaceAllChar_of_not_mem _ _ _ (h e (List.mem_cons_self e t))]
    exact ih (fun e' he' => h e' (List.mem_cons_of_mem e he'))

/-- Lower-casing and the replacement of the glyphs change nothing in a text of digits,
slashes and whitespace. -/
theorem quantity_text_unchanged (s : JSString)
    (h : ∀ c ∈ s, isDigit c = true ∨ c.toNat = 0x2F ∨ isWhiteSpace c = true) :
    toLowerCase s = s ∧ fractionMap.foldl (fun r e => replaceAllChar e.1 e.2 r) s = s := by
  constructor
  · unfold toLowerCase
    have hmap : s.map toLowerChar = s.map id := by
      apply List.map_congr_left
      intro c hc
      have hc' := h c hc
      simp only [isDigit, isWhiteSpace, Bool.or_eq_true, Bool.and_eq_true, decide_eq_true_eq,
        beq_iff_eq] at hc'
      unfold toLowerChar
      rw [if_neg (by omega)]
      rfl
    rw [hmap, List.map_id]
  · apply foldl_replaceAllChar_eq_self
    have hg : ∀ e ∈ fractionMap,
        ¬ (isDigit e.1 = true ∨ e.1.toNat = 0x2F ∨ isWhiteSpace e.1 = true) := by decide
    intro e he hmem
    exact hg e he (h e.1 hmem)

/-- A text without whitespace is no mixed number. -/
theorem matchMixed_eq_none (s : JSString) (h : ∀ c ∈ s, isWhiteSpace c = false) :
    matchMixed s = none := by
  unfold matchMixed
  rw [List.head?_eq_none_iff]
  apply List.eq_nil_iff_forall_not_mem.2
  intro y hy
  simp only [List.mem_flatMap] at hy
  obtain ⟨w, hw, g, hg, _⟩ := hy
  obtain ⟨hcut, _, _⟩ := plusM_mem _ _ w.1 w.2 hw
  obtain ⟨hcut', hne, hws⟩ := plusM_mem _ _ g.1 g.2 hg
  obtain ⟨c, t, hct⟩ := List.exists_cons_of_ne_nil hne
  have hc : isWhiteSpace c = true := hws c (by rw [hct]; exact List.mem_cons_self c t)
  have hcs : c ∈ s := by
    rw [← hcut, ← hcut', hct]
    simp
  rw [h c hcs] at hc
  exact Bool.noConfusion hc

/-- Two whole numbers with whitespace between them are a mixed number, with the two numbers
as its groups. -/
theorem matchMixed_two (da db blanks : JSString)
    (ha : da ≠ []) (had : ∀ c ∈ da, isDigit c = true)
    (hb : db ≠ []) (hbd : ∀ c ∈ db, isDigit c = true)
    (h1 : blanks ≠ []) (h1w : ∀ c ∈ blanks, isWhiteSpace c = true) :
    matchMixed (da ++ (blanks ++ db)) = some (da, db) := by
  have hwd : ∀ c, isWhiteSpace c = true → isDigit c = false := by
    intro c hw
    simp only [isWhiteSpace, Bool.or_eq_true, Bool.and_eq_true, decide_eq_true_eq,
      beq_iff_eq] at hw
    simp only [isDigit, Bool.and_eq_false_iff, decide_eq_false_iff_not]
    omega
  have hdw : ∀ c, isDigit c = true → isWhiteSpace c = false := by
    intro c hd
    simp only [isDigit, Bool.and_eq_true, decide_eq_true_eq] at hd
    simp only [isWhiteSpace, Bool.or_eq_false_iff, Bool.and_eq_false_iff,
      decide_eq_false_iff_not, beq_eq_false_iff_ne, ne_eq]
    omega
  obtain ⟨w0, wt, rfl⟩ := List.exists_cons_of_ne_nil h1
  obtain ⟨b0, bt, rfl⟩ := List.exists_cons_of_ne_nil hb
  obtain ⟨tl1, hp1⟩ := plusM_run isDigit da (w0 :: wt ++ b0 :: bt) ha had (fun c t h => by
    rw [← (List.cons.inj h).1]
    exact hwd w0 (h1w w0 (List.mem_cons_self _ _)))
  obtain ⟨tl2, hp2⟩ := plusM_run isWhiteSpace (w0 :: wt) (b0 :: bt) (List.cons_ne_nil _ _) h1w
    (fun c t h => by
      rw [← (List.cons.inj h).1]
      exact hdw b0 (hbd b0 (List.mem_cons_self _ _)))
  obtain ⟨tl3, hp3⟩ := plusM_run isDigitOrDot (b0 :: bt) [] (List.cons_ne_nil _ _)
    (fun c hc => by simp [isDigitOrDot, hbd c hc]) (fun c t h => List.noConfusion h)
  rw [List.append_nil] at hp3
  simp only [List.cons_append] at hp1 hp2
  simp only [matchMixed, hp1, List.flatMap_cons, hp2, hp3, List.filter_cons, List.isEmpty_nil,
    if_true, List.map_cons, List.cons_append, List.head?_cons]

/-- The number a text of digits is read as. -/
theorem parseFloat_digits (d : JSString) (hd : d ≠ []) (hdd : ∀ c ∈ d, isDigit c = true) :
    parseFloat d = JSNumber.dec (digitsToNat d) 0 := by
  have h1 : d.takeWhile isDigit = d := List.takeWhile_eq_self_iff.2 hdd
  have h2 : d.dropWhile isDigit = [] := List.dropWhile_eq_nil_iff.2 hdd
  have h3 : d.isEmpty = false := by
    cases h : d with
    | nil => exact absurd h hd
    | cons _ _ => rfl
  simp only [parseFloat, h1, h2, h3, Bool.false_and, Bool.false_eq_true, if_false,
    List.append_nil, List.length_nil]

/-- The sum of two whole numbers prints as the digits of the sum. -/
theorem toString_add_whole (a b : Nat) :
    ((JSNumber.dec a 0).add (JSNumber.dec b 0)).toString = Nat.toDigits 10 (a + b) := by
  have hpad : padDigits 0 0 = ['0'] := by decide
  simp only [JSNumber.add, JSNumber.toString, Nat.pow_zero, Nat.mul_one, Nat.mod_one, hpad,
    Nat.div_one, Nat.add_zero]
  rfl

/-- The cleaned quantity of a text that starts and ends with a digit, followed by
whitespace. -/
theorem cleanQuantity_trimmed (x0 z : Char) (tl init blanks : JSString)
    (hx : isDigit x0 = true) (hz : isDigit z = true) (he : x0 :: tl = init ++ [z])
    (hall : ∀ c ∈ x0 :: tl, isDigit c = true ∨ c.toNat = 0x2F ∨ isWhiteSpace c = true)
    (hb : ∀ c ∈ blanks, isWhiteSpace c = true) :
    cleanQuantity (some (x0 :: tl ++ blanks)) =
      match matchMixed (x0 :: tl) with
      | some (w, f) => ((parseFloat w).add (parseFloat f)).toString
      | none => x0 :: tl := by
  have hdw : ∀ c, isDigit c = true → isWhiteSpace c = false := by
    intro c hd
    simp only [isDigit, Bool.and_eq_true, decide_eq_true_eq] at hd
    simp only [isWhiteSpace, Bool.or_eq_false_iff, Bool.and_eq_false_iff,
      decide_eq_false_iff_not, beq_eq_false_iff_ne, ne_eq]
    omega
  have ht : trim (x0 :: (tl ++ blanks)) = x0 :: tl :=
    trim_append_whitespace x0 z tl init blanks (hdw x0 hx) (hdw z hz) he hb
  obtain ⟨h1, h2⟩ := quantity_text_unchanged (x0 :: tl) hall
  rw [List.cons_append]
  unfold cleanQuantity
  dsimp only
  rw [ht, h1, h2]

/-- Claim C21: for every line that starts with a slash fraction, digits, a slash and digits,
followed by a space and a letter, parseIngredient returns a record whose quantity is exactly
the text of the fraction and no decimal. A line is a text without line terminator. -/
theorem parseIngredient_slash_fraction (d1 d2 rest : JSString) (l : Char)
    (h1 : d1 ≠ []) (h1d : ∀ c ∈ d1, isDigit c = true)
    (h2 : d2 ≠ []) (h2d : ∀ c ∈ d2, isDigit c = true)
    (hl : isAsciiLetter l = true) (hrest : ∀ c ∈ rest, isLineTerminator c = false) :
    ∃ r, parseIngredient (JSValue.string (d1 ++ '/' :: (d2 ++ ' ' :: l :: rest))) = some r ∧
      r.quantity = d1 ++ '/' :: d2 := by
  have hdw : ∀ c, isDigit c = true → isWhiteSpace c = false := by
    intro c hd
    simp only [isDigit, Bool.and_eq_true, decide_eq_true_eq] at hd
    simp only [isWhiteSpace, Bool.or_eq_false_iff, Bool.and_eq_false_iff,
      decide_eq_false_iff_not, beq_eq_false_iff_ne, ne_eq]
    omega
  have hlw : isWhiteSpace l = false := (not_whiteSpace_of_letter l hl).1
  have hld : isDigit l = false := by
    simp only [isAsciiLetter, Bool.or_eq_true, Bool.and_eq_true, decide_eq_true_eq] at hl
    simp only [isDigit, Bool.and_eq_false_iff, decide_eq_false_iff_not]
    omega
  have hll : isLineTerminator l = false := by
    simp only [isAsciiLetter, Bool.or_eq_true, Bool.and_eq_true, decide_eq_true_eq] at hl
    simp only [isLineTerminator, Bool.or_eq_false_iff, beq_eq_false_iff_ne, ne_eq]
    omega
  obtain ⟨a0, A, rfl⟩ := List.exists_cons_of_ne_nil h1
  obtain ⟨init2, z, rfl⟩ : ∃ init2 z, d2 = init2 ++ [z] := by
    rcases List.eq_nil_or_concat d2 with h | ⟨L, b, h⟩
    · exact absurd h h2
    · exact ⟨L, b, by simpa using h⟩
  have ha0 : isDigit a0 = true := h1d a0 (List.mem_cons_self _ _)
  have hz : isDigit z = true := h2d z (by simp)
  obtain ⟨rest', htrim, hsub⟩ := trim_shape a0 l (A ++ '/' :: (init2 ++ [z] ++ [' '])) rest
    (hdw a0 ha0) hlw
  have hshape : a0 :: A ++ '/' :: (init2 ++ [z] ++ ' ' :: l :: rest) =
      a0 :: (A ++ '/' :: (init2 ++ [z] ++ [' '])) ++ l :: rest := by
    simp only [List.append_assoc, List.cons_append, List.nil_append]
  have htrim' : trim (a0 :: A ++ '/' :: (init2 ++ [z] ++ ' ' :: l :: rest)) =
      (a0 :: A) ++ '/' :: ((init2 ++ [z]) ++ ([' '] ++ (l :: rest'))) := by
    rw [hshape, htrim]
    simp only [List.append_assoc, List.cons_append, List.nil_append]
  obtain ⟨tl0, hN⟩ := numberM_head_slash (a0 :: A) (init2 ++ [z]) ([' '] ++ (l :: rest'))
    h1 h1d h2 h2d (fun c t h => by
      rw [← (List.cons.inj h).1]
      decide)
  obtain ⟨tl1, hq⟩ := quantityM_head_single _ (a0 :: A ++ '/' :: (init2 ++ [z])) [' ']
    (l :: rest') tl0 hN (by decide) (fun c t h => by
      rw [← (List.cons.inj h).1]
      exact ⟨hlw, hld⟩)
  obtain ⟨u, n, hm⟩ := matchPattern_of_quantity_head _ _ (l :: rest') tl1 hq (by simp)
    (List.cons_ne_nil _ _) (fun c hc => by
      rcases List.mem_cons.1 hc with rfl | hc'
      · exact hll
      · exact hrest c (hsub c hc'))
  rw [← htrim'] at hm
  have hrec := parseIngredient_of_match (a0 :: A ++ '/' :: (init2 ++ [z] ++ ' ' :: l :: rest))
    (by simp) _ u n hm
  refine ⟨_, hrec, ?_⟩
  have hall : ∀ c ∈ a0 :: (A ++ '/' :: (init2 ++ [z])),
      isDigit c = true ∨ c.toNat = 0x2F ∨ isWhiteSpace c = true := by
    intro c hc
    rcases List.mem_cons.1 hc with rfl | hc
    · exact Or.inl ha0
    · rcases List.mem_append.1 hc with hc | hc
      · exact Or.inl (h1d c (List.mem_cons_of_mem _ hc))
      · rcases List.mem_cons.1 hc with rfl | hc
        · exact Or.inr (Or.inl (by decide))
        · exact Or.inl (h2d c hc)
  have hnows : ∀ c ∈ a0 :: (A ++ '/' :: (init2 ++ [z])), isWhiteSpace c = false := by
    intro c hc
    rcases hall c hc with h | h | h
    · exact hdw c h
    · simp only [isWhiteSpace, Bool.or_eq_false_iff, Bool.and_eq_false_iff,
        decide_eq_false_iff_not, beq_eq_false_iff_ne, ne_eq]
      omega
    · rcases List.mem_cons.1 hc with rfl | hc
      · exact hdw _ ha0
      · rcases List.mem_append.1 hc with hc | hc
        · exact hdw c (h1d c (List.mem_cons_of_mem _ hc))
        · rcases List.mem_cons.1 hc with rfl | hc
          · decide
          · exact hdw c (h2d c hc)
  have hclean := cleanQuantity_trimmed a0 z (A ++ '/' :: (init2 ++ [z]))
    (a0 :: A ++ '/' :: init2) [' '] ha0 hz
    (by simp only [List.append_assoc, List.cons_append, List.nil_append]) hall (by decide)
  rw [matchMixed_eq_none _ hnows] at hclean
  dsimp only
  rw [List.cons_append a0 A, hclean]

/-- The line "1/3 cup milk" keeps the quantity "1/3". -/
theorem parseIngredient_slash_fraction_witness :
    ∃ r, parseIngredient (JSValue.string ("1".toList ++ '/' :: ("3".toList ++
        ' ' :: 'c' :: "up milk".toList))) = some r ∧
      r.quantity = "1".toList ++ '/' :: "3".toList :=
  parseIngredient_slash_fraction "1".toList "3".toList "up milk".toList 'c'
    (by decide) (by decide) (by decide) (by decide) (by decide) (by decide)

/-- Claim C26, as written, fails on the line "2 15 ": the blank after 15 is neither a digit nor a
slash, the line is trimmed to "2 15", the last digit has to go to the name, and the quantity
is "3", the sum of 2 and 1, with the name "5". -/
theorem parseIngredient_two_numbers_trailing_blank :
    parseIngredient (JSValue.string "2 15 ".toList) =
      some { quantity := "3".toList, unit := UnitValue.text [], name := "5".toList,
             notes := [], original := "2 15".toList } ∧
    Nat.toDigits 10 (digitsToNat "2".toList + digitsToNat "15".toList) = "17".toList := by
  decide

/-- Claim C26, amended: for every line that starts with two whole numbers a and b (each below
10^15) separated by whitespace, where the second number is followed, after whitespace or
none, by a character that is no whitespace, and the character right after the second number
is neither a digit nor a slash, parseIngredient returns a record whose quantity is the decimal
text of a + b. A line is a text without line terminator. -/
theorem parseIngredient_two_numbers (da db blanks1 blanks2 rest : JSString) (x : Char)
    (ha : da ≠ []) (had : ∀ c ∈ da, isDigit c = true)
    (hb : db ≠ []) (hbd : ∀ c ∈ db, isDigit c = true)
    (h1 : blanks1 ≠ []) (h1w : ∀ c ∈ blanks1, isWhiteSpace c = true)
    (h2w : ∀ c ∈ blanks2, isWhiteSpace c = true)
    (hx : isWhiteSpace x = false)
    (hnext : blanks2 = [] → isDigit x = false ∧ x.toNat ≠ 0x2F)
    (hrest : ∀ c ∈ rest, isLineTerminator c = false)
    (hna : digitsToNat da < 10 ^ 15) (hnb : digitsToNat db < 10 ^ 15) :
    ∃ r, parseIngredient
        (JSValue.string (da ++ (blanks1 ++ (db ++ (blanks2 ++ x :: rest))))) = some r ∧
      r.quantity = Nat.toDigits 10 (digitsToNat da + digitsToNat db) := by
  have hdw : ∀ c, isDigit c = true → isWhiteSpace c = false := by
    intro c hd
    simp only [isDigit, Bool.and_eq_true, decide_eq_true_eq] at hd
    simp only [isWhiteSpace, Bool.or_eq_false_iff, Bool.and_eq_false_iff,
      decide_eq_false_iff_not, beq_eq_false_iff_ne, ne_eq]
    omega
  have hwd : ∀ c, isWhiteSpace c = true → isDigit c = false ∧ (c.toNat == 0x2F) = false := by
    intro c hw
    simp only [isWhiteSpace, Bool.or_eq_true, Bool.and_eq_true, decide_eq_true_eq,
      beq_iff_eq] at hw
    simp only [isDigit, Bool.and_eq_false_iff, decide_eq_false_iff_not, beq_eq_false_iff_ne,
      ne_eq]
    omega
  have hxl : isLineTerminator x = false := by
    simp only [isWhiteSpace, Bool.or_eq_false_iff, Bool.and_eq_false_iff,
      decide_eq_false_iff_not, beq_eq_false_iff_ne, ne_eq] at hx
    simp only [isLineTerminator, Bool.or_eq_false_iff, beq_eq_false_iff_ne, ne_eq]
    omega
  obtain ⟨a0, A, rfl⟩ := List.exists_cons_of_ne_nil ha
  obtain ⟨initb, z, rfl⟩ : ∃ initb z, db = initb ++ [z] := by
    rcases List.eq_nil_or_concat db with h | ⟨L, b, h⟩
    · exact absurd h hb
    · exact ⟨L, b, by simpa using h⟩
  have ha0 : isDigit a0 = true := had a0 (List.mem_cons_self _ _)
  have hz : isDigit z = true := hbd z (by simp)
  obtain ⟨rest', htrim, hsub⟩ := trim_shape a0 x (A ++ (blanks1 ++ (initb ++ [z] ++ blanks2)))
    rest (hdw a0 ha0) hx
  have hshape : a0 :: A ++ (blanks1 ++ (initb ++ [z] ++ (blanks2 ++ x :: rest))) =
      a0 :: (A ++ (blanks1 ++ (initb ++ [z] ++ blanks2))) ++ x :: rest := by
    simp only [List.append_assoc, List.cons_append, List.nil_append]
  have htrim' : trim (a0 :: A ++ (blanks1 ++ (initb ++ [z] ++ (blanks2 ++ x :: rest)))) =
      (a0 :: A) ++ (blanks1 ++ ((initb ++ [z]) ++ (blanks2 ++ (x :: rest')))) := by
    rw [hshape, htrim]
    simp only [List.append_assoc, List.cons_append, List.nil_append]
  obtain ⟨tl, hq⟩ := quantityM_head_mixed (a0 :: A) (initb ++ [z]) blanks1 blanks2 (x :: rest')
    ha had hb hbd h1 h1w h2w
    (fun c t h => by
      rw [← (List.cons.inj h).1]
      exact hx)
    (fun c t h => by
      cases hb2 : blanks2 with
      | nil =>
        rw [hb2, List.nil_append] at h
        rw [← (List.cons.inj h).1]
        exact ⟨(hnext hb2).1, by simpa using (hnext hb2).2⟩
      | cons w wt =>
        rw [hb2, List.cons_append] at h
        rw [← (List.cons.inj h).1]
        exact hwd w (h2w w (by rw [hb2]; exact List.mem_cons_self _ _)))
  obtain ⟨u, n, hm⟩ := matchPattern_of_quantity_head _ _ (x :: rest') tl hq (by simp)
    (List.cons_ne_nil _ _) (fun c hc => by
      rcases List.mem_cons.1 hc with rfl | hc'
      · exact hxl
      · exact hrest c (hsub c hc'))
  rw [← htrim'] at hm
  have hrec := parseIngredient_of_match
    (a0 :: A ++ (blanks1 ++ (initb ++ [z] ++ (blanks2 ++ x :: rest)))) (by simp) _ u n hm
  refine ⟨_, hrec, ?_⟩
  have hall : ∀ c ∈ a0 :: (A ++ (blanks1 ++ (initb ++ [z]))),
      isDigit c = true ∨ c.toNat = 0x2F ∨ isWhiteSpace c = true := by
    intro c hc
    rcases List.mem_cons.1 hc with rfl | hc
    · exact Or.inl ha0
    · rcases List.mem_append.1 hc with hc | hc
      · exact Or.inl (had c (List.mem_cons_of_mem _ hc))
      · rcases List.mem_append.1 hc with hc | hc
        · exact Or.inr (Or.inr (h1w c hc))
        · exact Or.inl (hbd c hc)
  have hclean := cleanQuantity_trimmed a0 z (A ++ (blanks1 ++ (initb ++ [z])))
    (a0 :: A ++ (blanks1 ++ initb)) blanks2 ha0 hz
    (by simp only [List.append_assoc, List.cons_append, List.nil_append]) hall h2w
  have hmm := matchMixed_two (a0 :: A) (initb ++ [z]) blanks1 ha had hb hbd h1 h1w
  rw [List.cons_append] at hmm
  rw [hmm] at hclean
  dsimp only at hclean
  rw [parseFloat_digits _ ha had, parseFloat_digits _ hb hbd, toString_add_whole] at hclean
  have hre : a0 :: A ++ (blanks1 ++ (initb ++ [z]) ++ blanks2) =
      a0 :: (A ++ (blanks1 ++ (initb ++ [z]))) ++ blanks2 := by
    simp only [List.append_assoc, List.cons_append, List.nil_append]
  dsimp only
  rw [hre, hclean]

/-- The documented line "2 15oz cans tomatoes" gets the quantity "17". -/
theorem parseIngredient_two_numbers_witness :
    ∃ r, parseIngredient (JSValue.string ("2".toList ++ (" ".toList ++ ("15".toList ++
        ([] ++ 'o' :: "z cans tomatoes".toList))))) = some r ∧
      r.quantity = Nat.toDigits 10 (digitsToNat "2".toList + digitsToNat "15".toList) :=
  parseIngredient_two_numbers "2".toList "15".toList " ".toList [] "z cans tomatoes".toList 'o'
    (by decide) (by decide) (by decide) (by decide) (by decide) (by decide) (by decide)
    (by decide) (by decide) (by decide) (by decide) (by decide)

end FocusRecipe
